import Mathlib

/-!
# Verification of the v0BTCPUZZLE cryptographic core

Shallow embedding of the repository's cryptographic and classical-cipher
routines (`src/lib/web-scraper.ts`, `src/lib/crypto-utils.ts`), together
with proofs and refutations of the specification's claims.

Byte sequences are modelled as `List Nat` (each entry a byte value),
strings as `List Char` of their code points, and JavaScript numbers as
`Nat` (all arithmetic in the embedded routines stays non-negative).
-/

namespace V0BTC

/-! ## Base58 codec (`src/lib/web-scraper.ts`, `base58Encode`/`base58Decode`)

The JavaScript `base58Decode` walks `bytes` with an index-based loop
`for (let i = 0; i < bytes.length; i++)`; the loop bound is re-evaluated
each iteration, so a byte pushed at the last position is itself processed
in the same pass, and the base-58 digit value (`carry`, constant for the
whole pass) is re-added at every position.  The embedding reproduces this
behaviour exactly. -/

def b58Alphabet : List Char :=
  "123456789ABCDEFGHJKLMNPQRSTUVWXYZabcdefghijkmnopqrstuvwxyz".toList

/-- `BASE58_ALPHABET.indexOf(char)`, as an optional index (`none` models -1). -/
def b58Index (c : Char) : Option Nat :=
  if c ∈ b58Alphabet then some (b58Alphabet.indexOf c) else none

/-- One pass of the decode loop for a single input character with digit value
`carry`, acting on the byte list from the current index to the end.
The middle case is `i < bytes.length - 1` (overflow is added to the next,
still unprocessed, entry); the singleton case is `i = bytes.length - 1`
(overflow is pushed and then processed by the same loop, since the loop
bound `bytes.length` is re-evaluated each iteration).  `fuel` bounds the
number of loop iterations; the caller passes `bytes.length + 8`, which is
ample because a pass runs `bytes.length` ordinary steps plus at most four
chained pushes (the pushed value drops below 256/58 geometrically). -/
def decodeLoop : Nat → Nat → List Nat → List Nat
  | 0, _, xs => xs
  | _ + 1, _, [] => []
  | fuel + 1, carry, [d] =>
    let n := d * 58 + carry
    if 256 ≤ n then n % 256 :: decodeLoop fuel carry [n / 256] else [n % 256]
  | fuel + 1, carry, d :: next :: rest =>
    let n := d * 58 + carry
    n % 256 :: decodeLoop fuel carry ((if 256 ≤ n then next + n / 256 else next) :: rest)

/-- `base58Decode` from `src/lib/web-scraper.ts` (returns the final
`Buffer.from(bytes.reverse())`; a character outside the alphabet throws). -/
def base58Decode (s : List Char) : Except String (List Nat) := do
  let bytes ← s.foldlM (fun bytes c =>
    match b58Index c with
    | none => Except.error ("Invalid Base58 character: " ++ c.toString)
    | some carry => Except.ok (decodeLoop (bytes.length + 8) carry bytes)) [0]
  let bytes := bytes ++ List.replicate (s.takeWhile (· = '1')).length 0
  return bytes.reverse

/-- The trailing `while (carry > 0)` push loop of `base58Encode`; the first
argument is iteration fuel (the caller passes `carry + 1`, ample since the
loop runs at most `log₅₈ carry + 1` times). -/
def pushCarry : Nat → Nat → List Nat
  | 0, _ => []
  | fuel + 1, carry =>
    if carry = 0 then [] else carry % 58 :: pushCarry fuel (carry / 58)

/-- The per-byte digit-update loop of `base58Encode`
(`carry += digits[i]*256; digits[i] = carry % 58; carry = floor(carry/58)`),
followed by the push loop once the existing digits are exhausted. -/
def encodeDigitsStep (carry : Nat) : List Nat → List Nat
  | [] => pushCarry (carry + 1) carry
  | d :: rest =>
    let n := carry + d * 256
    n % 58 :: encodeDigitsStep (n / 58) rest

/-- `base58Encode` from `src/lib/web-scraper.ts`. -/
def base58Encode (buf : List Nat) : List Char :=
  let digits := buf.foldl (fun digits byte => encodeDigitsStep byte digits) [0]
  let digits := digits ++ List.replicate (buf.takeWhile (· = 0)).length 0
  digits.reverse.map (fun d => b58Alphabet.getD d ' ')

/-! ## Hash layer

Models of the Node `crypto.createHash` primitives used by the repository
(`sha256`, `ripemd160`): full executable implementations of the standard
algorithms on byte lists. -/

/-- Truncation to a 32-bit word. -/
def w32 (x : Nat) : Nat := x % 4294967296

/-- 32-bit rotate right (argument assumed below `2 ^ 32`). -/
def rotr32 (x n : Nat) : Nat := w32 (x >>> n ||| x <<< (32 - n))

/-- 32-bit rotate left (argument assumed below `2 ^ 32`). -/
def rol32 (x n : Nat) : Nat := w32 (x <<< n ||| x >>> (32 - n))

/-- Big-endian 4-byte encoding of a 32-bit word. -/
def be32 (n : Nat) : List Nat := [n >>> 24 % 256, n >>> 16 % 256, n >>> 8 % 256, n % 256]

/-- Big-endian 8-byte encoding of a 64-bit value. -/
def be64 (n : Nat) : List Nat :=
  [n >>> 56 % 256, n >>> 48 % 256, n >>> 40 % 256, n >>> 32 % 256,
   n >>> 24 % 256, n >>> 16 % 256, n >>> 8 % 256, n % 256]

/-- Little-endian 4-byte encoding of a 32-bit word. -/
def le32 (n : Nat) : List Nat := [n % 256, n >>> 8 % 256, n >>> 16 % 256, n >>> 24 % 256]

/-- Little-endian 8-byte encoding of a 64-bit value. -/
def le64 (n : Nat) : List Nat :=
  [n % 256, n >>> 8 % 256, n >>> 16 % 256, n >>> 24 % 256,
   n >>> 32 % 256, n >>> 40 % 256, n >>> 48 % 256, n >>> 56 % 256]

/-- Group bytes into big-endian 32-bit words (any trailing partial group is
dropped; inputs are always multiples of four bytes). -/
def bytesToWordsBE : List Nat → List Nat
  | a :: b :: c :: d :: rest => (((a * 256 + b) * 256 + c) * 256 + d) :: bytesToWordsBE rest
  | _ => []

/-- Group bytes into little-endian 32-bit words. -/
def bytesToWordsLE : List Nat → List Nat
  | a :: b :: c :: d :: rest => (((d * 256 + c) * 256 + b) * 256 + a) :: bytesToWordsLE rest
  | _ => []

/-- Merkle–Damgård padding with a big-endian 64-bit bit-length (SHA-256). -/
def mdPadBE (msg : List Nat) : List Nat :=
  msg ++ 0x80 :: List.replicate ((64 - (msg.length + 9) % 64) % 64) 0 ++ be64 (msg.length * 8)

/-- Merkle–Damgård padding with a little-endian 64-bit bit-length
(MD5, RIPEMD-160). -/
def mdPadLE (msg : List Nat) : List Nat :=
  msg ++ 0x80 :: List.replicate ((64 - (msg.length + 9) % 64) % 64) 0 ++ le64 (msg.length * 8)

def sha256K : List Nat :=
  [0x428a2f98, 0x71374491, 0xb5c0fbcf, 0xe9b5dba5] ++
  [0x3956c25b, 0x59f111f1, 0x923f82a4, 0xab1c5ed5] ++
  [0xd807aa98, 0x12835b01, 0x243185be, 0x550c7dc3] ++
  [0x72be5d74, 0x80deb1fe, 0x9bdc06a7, 0xc19bf174] ++
  [0xe49b69c1, 0xefbe4786, 0x0fc19dc6, 0x240ca1cc] ++
  [0x2de92c6f, 0x4a7484aa, 0x5cb0a9dc, 0x76f988da] ++
  [0x983e5152, 0xa831c66d, 0xb00327c8, 0xbf597fc7] ++
  [0xc6e00bf3, 0xd5a79147, 0x06ca6351, 0x14292967] ++
  [0x27b70a85, 0x2e1b2138, 0x4d2c6dfc, 0x53380d13] ++
  [0x650a7354, 0x766a0abb, 0x81c2c92e, 0x92722c85] ++
  [0xa2bfe8a1, 0xa81a664b, 0xc24b8b70, 0xc76c51a3] ++
  [0xd192e819, 0xd6990624, 0xf40e3585, 0x106aa070] ++
  [0x19a4c116, 0x1e376c08, 0x2748774c, 0x34b0bcb5] ++
  [0x391c0cb3, 0x4ed8aa4a, 0x5b9cca4f, 0x682e6ff3] ++
  [0x748f82ee, 0x78a5636f, 0x84c87814, 0x8cc70208] ++
  [0x90befffa, 0xa4506ceb, 0xbef9a3f7, 0xc67178f2]

def sha256InitH : List Nat :=
  [0x6a09e667, 0xbb67ae85, 0x3c6ef372, 0xa54ff53a] ++
  [0x510e527f, 0x9b05688c, 0x1f83d9ab, 0x5be0cd19]

/-- Extend the 16 message words to 64 (fuel counts the remaining words). -/
def sha256Extend : Nat → List Nat → List Nat
  | 0, w => w
  | fuel + 1, w =>
    let i := w.length
    let w15 := w.getD (i - 15) 0
    let w2 := w.getD (i - 2) 0
    let s0 := rotr32 w15 7 ^^^ rotr32 w15 18 ^^^ (w15 >>> 3)
    let s1 := rotr32 w2 17 ^^^ rotr32 w2 19 ^^^ (w2 >>> 10)
    sha256Extend fuel (w ++ [w32 (w.getD (i - 16) 0 + s0 + w.getD (i - 7) 0 + s1)])

/-- The 64 SHA-256 rounds, folding over the round constants and schedule. -/
def sha256Rounds : List Nat → List Nat → List Nat → List Nat
  | k :: ks, wi :: ws, st =>
    let a := st.getD 0 0
    let b := st.getD 1 0
    let c := st.getD 2 0
    let d := st.getD 3 0
    let e := st.getD 4 0
    let f := st.getD 5 0
    let g := st.getD 6 0
    let h := st.getD 7 0
    let s1 := rotr32 e 6 ^^^ rotr32 e 11 ^^^ rotr32 e 25
    let ch := (e &&& f) ^^^ ((4294967295 - e) &&& g)
    let t1 := w32 (h + s1 + ch + k + wi)
    let s0 := rotr32 a 2 ^^^ rotr32 a 13 ^^^ rotr32 a 22
    let mj := (a &&& b) ^^^ (b &&& c) ^^^ (a &&& c)
    let t2 := w32 (s0 + mj)
    sha256Rounds ks ws [w32 (t1 + t2), a, b, c, w32 (d + t1), e, f, g]
  | _, _, st => st

/-- Compress one 64-byte block into the running state. -/
def sha256Block (block : List Nat) (hs : List Nat) : List Nat :=
  let w := sha256Extend 48 (bytesToWordsBE block)
  let st := sha256Rounds sha256K w hs
  List.zipWith (fun h v => w32 (h + v)) hs st

/-- Process the padded message block by block (fuel = number of blocks). -/
def sha256Loop : Nat → List Nat → List Nat → List Nat
  | 0, _, hs => hs
  | fuel + 1, bytes, hs =>
    sha256Loop fuel (bytes.drop 64) (sha256Block (bytes.take 64) hs)

/-- SHA-256 of a byte list (models `crypto.createHash("sha256")`). -/
def sha256 (msg : List Nat) : List Nat :=
  let padded := mdPadBE msg
  let hs := sha256Loop (padded.length / 64) padded sha256InitH
  (hs.map be32).flatten

/-! ### RIPEMD-160 -/

def rmdR1 : List Nat :=
  List.range 16 ++
  [7, 4, 13, 1, 10, 6, 15, 3, 12, 0, 9, 5, 2, 14, 11, 8,
   3, 10, 14, 4, 9, 15, 8, 1, 2, 7, 0, 6, 13, 11, 5, 12,
   1, 9, 11, 10, 0, 8, 12, 4, 13, 3, 7, 15, 14, 5, 6, 2,
   4, 0, 5, 9, 7, 12, 2, 10, 14, 1, 3, 8, 11, 6, 15, 13]

def rmdR2 : List Nat :=
  [5, 14, 7, 0, 9, 2, 11, 4, 13, 6, 15, 8, 1, 10, 3, 12,
   6, 11, 3, 7, 0, 13, 5, 10, 14, 15, 8, 12, 4, 9, 1, 2,
   15, 5, 1, 3, 7, 14, 6, 9, 11, 8, 12, 2, 10, 0, 4, 13,
   8, 6, 4, 1, 3, 11, 15, 0, 5, 12, 2, 13, 9, 7, 10, 14,
   12, 15, 10, 4, 1, 5, 8, 7, 6, 2, 13, 14, 0, 3, 9, 11]

def rmdS1 : List Nat :=
  [11, 14, 15, 12, 5, 8, 7, 9, 11, 13, 14, 15, 6, 7, 9, 8,
   7, 6, 8, 13, 11, 9, 7, 15, 7, 12, 15, 9, 11, 7, 13, 12,
   11, 13, 6, 7, 14, 9, 13, 15, 14, 8, 13, 6, 5, 12, 7, 5,
   11, 12, 14, 15, 14, 15, 9, 8, 9, 14, 5, 6, 8, 6, 5, 12,
   9, 15, 5, 11, 6, 8, 13, 12, 5, 12, 13, 14, 11, 8, 5, 6]

def rmdS2 : List Nat :=
  [8, 9, 9, 11, 13, 15, 15, 5, 7, 7, 8, 11, 14, 14, 12, 6,
   9, 13, 15, 7, 12, 8, 9, 11, 7, 7, 12, 7, 6, 15, 13, 11,
   9, 7, 15, 11, 8, 6, 6, 14, 12, 13, 5, 14, 13, 13, 7, 5,
   15, 5, 8, 11, 14, 14, 6, 14, 6, 9, 12, 9, 12, 5, 15, 8,
   8, 5, 12, 9, 12, 5, 14, 6, 8, 13, 6, 5, 15, 13, 11, 11]

/-- The five RIPEMD-160 step functions, selected by step index. -/
def rmdF (j x y z : Nat) : Nat :=
  if j < 16 then x ^^^ y ^^^ z
  else if j < 32 then (x &&& y) ||| ((4294967295 - x) &&& z)
  else if j < 48 then (x ||| (4294967295 - y)) ^^^ z
  else if j < 64 then (x &&& z) ||| (y &&& (4294967295 - z))
  else x ^^^ (y ||| (4294967295 - z))

def rmdK1 : List Nat := [0, 0x5a827999, 0x6ed9eba1, 0x8f1bbcdc, 0xa953fd4e]

def rmdK2 : List Nat := [0x50a28be6, 0x5c4dd124, 0x6d703ef3, 0x7a6d76e9, 0]

/-- The 80 parallel RIPEMD-160 steps over one block's words `X`, folding
over the list of step indices `0, 1, …, 79`; the ten working registers
`[a, b, c, d, e, a', b', c', d', e']` are carried as a list. -/
def rmdSteps (X : List Nat) : List Nat → List Nat → List Nat
  | [], regs => regs
  | j :: js, regs =>
    let a := regs.getD 0 0
    let b := regs.getD 1 0
    let c := regs.getD 2 0
    let d := regs.getD 3 0
    let e := regs.getD 4 0
    let a2 := regs.getD 5 0
    let b2 := regs.getD 6 0
    let c2 := regs.getD 7 0
    let d2 := regs.getD 8 0
    let e2 := regs.getD 9 0
    let t := w32 (rol32 (w32 (a + rmdF j b c d + X.getD (rmdR1.getD j 0) 0 +
      rmdK1.getD (j / 16) 0)) (rmdS1.getD j 0) + e)
    let t2 := w32 (rol32 (w32 (a2 + rmdF (79 - j) b2 c2 d2 + X.getD (rmdR2.getD j 0) 0 +
      rmdK2.getD (j / 16) 0)) (rmdS2.getD j 0) + e2)
    rmdSteps X js [e, t, b, rol32 c 10, d, e2, t2, b2, rol32 c2 10, d2]

/-- Compress one 64-byte block into the running RIPEMD-160 state. -/
def rmdBlock (block : List Nat) (hs : List Nat) : List Nat :=
  let X := bytesToWordsLE block
  let h0 := hs.getD 0 0
  let h1 := hs.getD 1 0
  let h2 := hs.getD 2 0
  let h3 := hs.getD 3 0
  let h4 := hs.getD 4 0
  let r := rmdSteps X (List.range 80) [h0, h1, h2, h3, h4, h0, h1, h2, h3, h4]
  [w32 (h1 + r.getD 2 0 + r.getD 8 0),
   w32 (h2 + r.getD 3 0 + r.getD 9 0),
   w32 (h3 + r.getD 4 0 + r.getD 5 0),
   w32 (h4 + r.getD 0 0 + r.getD 6 0),
   w32 (h0 + r.getD 1 0 + r.getD 7 0)]

def rmdInitH : List Nat := [0x67452301, 0xefcdab89, 0x98badcfe, 0x10325476, 0xc3d2e1f0]

/-- Process the padded message block by block (fuel = number of blocks). -/
def rmdLoop : Nat → List Nat → List Nat → List Nat
  | 0, _, hs => hs
  | fuel + 1, bytes, hs =>
    rmdLoop fuel (bytes.drop 64) (rmdBlock (bytes.take 64) hs)

/-- RIPEMD-160 of a byte list (models `crypto.createHash("ripemd160")`,
used by `ripemd160` in `src/lib/web-scraper.ts`). -/
def ripemd160 (msg : List Nat) : List Nat :=
  let padded := mdPadLE msg
  let hs := rmdLoop (padded.length / 64) padded rmdInitH
  (hs.map le32).flatten

/-! ### MD5 (used only by the OpenSSL `EVP_BytesToKey` derivation) -/

def md5S : List Nat :=
  [7, 12, 17, 22, 7, 12, 17, 22, 7, 12, 17, 22, 7, 12, 17, 22,
   5, 9, 14, 20, 5, 9, 14, 20, 5, 9, 14, 20, 5, 9, 14, 20,
   4, 11, 16, 23, 4, 11, 16, 23, 4, 11, 16, 23, 4, 11, 16, 23,
   6, 10, 15, 21, 6, 10, 15, 21, 6, 10, 15, 21, 6, 10, 15, 21]

def md5K : List Nat :=
  [0xd76aa478, 0xe8c7b756, 0x242070db, 0xc1bdceee, 0xf57c0faf, 0x4787c62a,
   0xa8304613, 0xfd469501, 0x698098d8, 0x8b44f7af, 0xffff5bb1, 0x895cd7be,
   0x6b901122, 0xfd987193, 0xa679438e, 0x49b40821, 0xf61e2562, 0xc040b340,
   0x265e5a51, 0xe9b6c7aa, 0xd62f105d, 0x02441453, 0xd8a1e681, 0xe7d3fbc8,
   0x21e1cde6, 0xc33707d6, 0xf4d50d87, 0x455a14ed, 0xa9e3e905, 0xfcefa3f8,
   0x676f02d9, 0x8d2a4c8a, 0xfffa3942, 0x8771f681, 0x6d9d6122, 0xfde5380c,
   0xa4beea44, 0x4bdecfa9, 0xf6bb4b60, 0xbebfbc70, 0x289b7ec6, 0xeaa127fa,
   0xd4ef3085, 0x04881d05, 0xd9d4d039, 0xe6db99e5, 0x1fa27cf8, 0xc4ac5665,
   0xf4292244, 0x432aff97, 0xab9423a7, 0xfc93a039, 0x655b59c3, 0x8f0ccc92,
   0xffeff47d, 0x85845dd1, 0x6fa87e4f, 0xfe2ce6e0, 0xa3014314, 0x4e0811a1,
   0xf7537e82, 0xbd3af235, 0x2ad7d2bb, 0xeb86d391]

/-- The MD5 round function for step `i`. -/
def md5F (i b c d : Nat) : Nat :=
  if i < 16 then (b &&& c) ||| ((4294967295 - b) &&& d)
  else if i < 32 then (d &&& b) ||| ((4294967295 - d) &&& c)
  else if i < 48 then b ^^^ c ^^^ d
  else c ^^^ (b ||| (4294967295 - d))

/-- The message-word index for step `i`. -/
def md5G (i : Nat) : Nat :=
  if i < 16 then i
  else if i < 32 then (5 * i + 1) % 16
  else if i < 48 then (3 * i + 5) % 16
  else 7 * i % 16

/-- The 64 MD5 steps over one block's words `X`, folding over the step
indices; registers `[a, b, c, d]` carried as a list. -/
def md5Steps (X : List Nat) : List Nat → List Nat → List Nat
  | [], regs => regs
  | i :: is, regs =>
    let a := regs.getD 0 0
    let b := regs.getD 1 0
    let c := regs.getD 2 0
    let d := regs.getD 3 0
    let t := w32 (b + rol32 (w32 (a + md5F i b c d + md5K.getD i 0 +
      X.getD (md5G i) 0)) (md5S.getD i 0))
    md5Steps X is [d, t, b, c]

def md5InitH : List Nat := [0x67452301, 0xefcdab89, 0x98badcfe, 0x10325476]

/-- Compress one 64-byte block into the running MD5 state. -/
def md5Block (block : List Nat) (hs : List Nat) : List Nat :=
  let X := bytesToWordsLE block
  let r := md5Steps X (List.range 64) hs
  List.zipWith (fun h v => w32 (h + v)) hs r

/-- Process the padded message block by block (fuel = number of blocks). -/
def md5Loop : Nat → List Nat → List Nat → List Nat
  | 0, _, hs => hs
  | fuel + 1, bytes, hs =>
    md5Loop fuel (bytes.drop 64) (md5Block (bytes.take 64) hs)

/-- MD5 of a byte list (models `crypto.createHash("md5")`). -/
def md5 (msg : List Nat) : List Nat :=
  let padded := mdPadLE msg
  let hs := md5Loop (padded.length / 64) padded md5InitH
  (hs.map le32).flatten

/-- `doubleSha256` from `src/lib/web-scraper.ts`. -/
def doubleSha256 (b : List Nat) : List Nat := sha256 (sha256 b)

/-- `hash160` from `src/lib/web-scraper.ts` (SHA-256 then RIPEMD-160). -/
def hash160 (b : List Nat) : List Nat := ripemd160 (sha256 b)

/-! ## Hex codec (models `Buffer.from(hex, "hex")` / `buf.toString("hex")`) -/

/-- Value of one hexadecimal digit character. -/
def hexDigitVal (c : Char) : Option Nat :=
  if '0' ≤ c ∧ c ≤ '9' then some (c.toNat - 48)
  else if 'a' ≤ c ∧ c ≤ 'f' then some (c.toNat - 87)
  else if 'A' ≤ c ∧ c ≤ 'F' then some (c.toNat - 55)
  else none

/-- `Buffer.from(hex, "hex")`: consume hex-digit pairs; decoding stops at the
first invalid pair or lone trailing digit. -/
def hexToBytes : List Char → List Nat
  | a :: b :: rest =>
    match hexDigitVal a, hexDigitVal b with
    | some x, some y => (x * 16 + y) :: hexToBytes rest
    | _, _ => []
  | _ => []

def hexChars : List Char := "0123456789abcdef".toList

/-- `buf.toString("hex")` (lowercase). -/
def bytesToHex (bs : List Nat) : List Char :=
  bs.flatMap (fun b => [hexChars.getD (b / 16 % 16) '0', hexChars.getD (b % 16) '0'])

/-! ## secp256k1 (model of Node `crypto.createECDH("secp256k1")`)

`privateKeyToAddress` derives its public key through Node's ECDH object;
that primitive is modelled here by textbook affine secp256k1 arithmetic:
`getPublicKey()` returns the 65-byte uncompressed encoding `04 ‖ x ‖ y` of
the scalar multiple of the generator. -/

def secpP : Nat :=
  0xfffffffffffffffffffffffffffffffffffffffffffffffffffffffefffffc2f

def secpGx : Nat :=
  0x79be667ef9dcbbac55a06295ce870b07029bfcdb2dce28d959f2815b16f81798

def secpGy : Nat :=
  0x483ada7726a3c4655da4fbfc0e1108a8fd17b448a68554199c47d08ffb10d4b8

/-- Modular exponentiation by squaring; `fuel` bounds the number of
squarings (callers pass at least the bit length of the exponent). -/
def powMod : Nat → Nat → Nat → Nat → Nat
  | 0, _, _, m => 1 % m
  | fuel + 1, b, e, m =>
    if e = 0 then 1 % m
    else
      let r := powMod fuel (b * b % m) (e / 2) m
      if e % 2 = 1 then r * b % m else r

/-- Modular inverse in the secp256k1 base field, via Fermat's little theorem. -/
def invMod (a : Nat) : Nat := powMod 257 a (secpP - 2) secpP

/-- A point in affine coordinates; `none` is the point at infinity. -/
def ECPoint : Type := Option (Nat × Nat)

/-- Curve point doubling (coordinates kept reduced modulo `secpP`). -/
def pointDouble : ECPoint → ECPoint
  | none => none
  | some (x, y) =>
    if y % secpP = 0 then none
    else
      let lam := 3 * x * x % secpP * invMod (2 * y % secpP) % secpP
      let x3 := (lam * lam + 2 * secpP - 2 * x) % secpP
      let y3 := (lam * ((x + secpP - x3) % secpP) + secpP - y) % secpP
      some (x3, y3)

/-- Curve point addition (coordinates kept reduced modulo `secpP`). -/
def pointAdd : ECPoint → ECPoint → ECPoint
  | none, q => q
  | some p, none => some p
  | some (x1, y1), some (x2, y2) =>
    if x1 = x2 then
      if (y1 + y2) % secpP = 0 then none else pointDouble (some (x1, y1))
    else
      let lam := (y2 + secpP - y1) * invMod ((x2 + secpP - x1) % secpP) % secpP
      let x3 := (lam * lam + 2 * secpP - (x1 + x2)) % secpP
      let y3 := (lam * ((x1 + secpP - x3) % secpP) + secpP - y1) % secpP
      some (x3, y3)

/-- Binary scalar multiplication; `fuel` bounds the number of doublings
(callers pass 257, covering any 256-bit scalar). -/
def scalarMul : Nat → Nat → ECPoint → ECPoint
  | 0, _, _ => none
  | fuel + 1, k, p =>
    if k = 0 then none
    else
      let rest := scalarMul fuel (k / 2) (pointDouble p)
      if k % 2 = 1 then pointAdd p rest else rest

/-- Big-endian `k`-byte encoding of `n`. -/
def beBytes (k n : Nat) : List Nat :=
  (List.range k).map (fun i => n >>> ((k - 1 - i) * 8) % 256)

/-- Model of `ecdh.setPrivateKey(buf); ecdh.getPublicKey()`: the 65-byte
uncompressed SEC1 encoding of `priv · G`. -/
def ecdhGetPublicKey (priv : List Nat) : List Nat :=
  let d := priv.foldl (fun a b => a * 256 + b) 0
  match scalarMul 257 d (some (secpGx, secpGy)) with
  | some (x, y) => 0x04 :: (beBytes 32 x ++ beBytes 32 y)
  | none => List.replicate 65 0

/-! ## Key and address module (`src/lib/web-scraper.ts`) -/

/-- `privateKeyToAddress` (the length check throws, modelled as `Except`). -/
def privateKeyToAddress (privateKeyHex : List Char) (compressed : Bool) :
    Except String (List Char) := do
  if privateKeyHex.length ≠ 64 then
    Except.error "Private key must be 64 hex characters (32 bytes)"
  else
    let privateKeyBuffer := hexToBytes privateKeyHex
    let fullPublicKey := ecdhGetPublicKey privateKeyBuffer
    let publicKey :=
      if compressed then
        let x := (fullPublicKey.drop 1).take 32
        let y := (fullPublicKey.drop 33).take 32
        let pfx := if y.getD 31 0 % 2 = 0 then 0x02 else 0x03
        pfx :: x
      else fullPublicKey
    let publicKeyHash := hash160 publicKey
    let versionedHash := 0x00 :: publicKeyHash
    let checksum := (doubleSha256 versionedHash).take 4
    return base58Encode (versionedHash ++ checksum)

/-- `privateKeyToWIF`. -/
def privateKeyToWIF (privateKeyHex : List Char) (compressed mainnet : Bool) :
    List Char :=
  let privateKeyBuffer := hexToBytes privateKeyHex
  let version := if mainnet then 0x80 else 0xef
  let extendedKey :=
    if compressed then version :: privateKeyBuffer ++ [0x01]
    else version :: privateKeyBuffer
  let checksum := (doubleSha256 extendedKey).take 4
  base58Encode (extendedKey ++ checksum)

/-- `wifToPrivateKey`: Base58-decode, verify the checksum, split off the
version byte and optional compression flag (errors model the `throw`s). -/
def wifToPrivateKey (wif : List Char) :
    Except String (List Char × Bool × Bool) := do
  let decoded ← base58Decode wif
  let payload := decoded.take (decoded.length - 4)
  let checksum := decoded.drop (decoded.length - 4)
  let calculatedChecksum := (doubleSha256 payload).take 4
  if checksum ≠ calculatedChecksum then
    Except.error "Invalid WIF checksum"
  else
    let version := payload.getD 0 0
    let mainnet := version == 0x80
    if payload.length = 34 ∧ payload.getD 33 0 = 0x01 then
      return (bytesToHex ((payload.drop 1).take 32), true, mainnet)
    else if payload.length = 33 then
      return (bytesToHex ((payload.drop 1).take 32), false, mainnet)
    else
      Except.error "Invalid WIF format"

/-! ## Classical cipher engine (`src/lib/crypto-utils.ts`)

Characters are handled one at a time exactly as the JavaScript does;
`jsToUpper`/`jsToLower` model `toUpperCase`/`toLowerCase` on the ASCII
range (the only range the alphabet lookups can match). -/

def upperAlphabetL : List Char := "ABCDEFGHIJKLMNOPQRSTUVWXYZ".toList

def lowerAlphabetL : List Char := "abcdefghijklmnopqrstuvwxyz".toList

/-- Single-character model of `String.prototype.toUpperCase` (the ASCII
range, the only one the ciphers' alphabet lookups can match). -/
def jsToUpper (c : Char) : Char :=
  if 97 ≤ c.toNat ∧ c.toNat ≤ 122 then Char.ofNat (c.toNat - 32) else c

/-- Single-character model of `String.prototype.toLowerCase`. -/
def jsToLower (c : Char) : Char :=
  if 65 ≤ c.toNat ∧ c.toNat ≤ 90 then Char.ofNat (c.toNat + 32) else c

/-- `key.toUpperCase().replace(/[^A-Z]/g, "")`. -/
def normalizeKey (key : List Char) : List Char :=
  (key.map jsToUpper).filter (fun c => c ∈ upperAlphabetL)

/-- Case preservation shared by both letter ciphers: if the original
character equals its own upper-casing the substitute `f upperChar` is kept,
otherwise it is lower-cased (`char === upperChar` test of the source). -/
def caseKeep (f : Char → Char) (c : Char) : Char :=
  if c = jsToUpper c then f (jsToUpper c) else jsToLower (f (jsToUpper c))

/-- The letter-position loop shared by both letter ciphers: a character
whose upper-casing is in the alphabet is substituted and advances
`keyIndex`; every other character passes through unchanged. -/
def cipherGo (f : Nat → Char → Char) : Nat → List Char → List Char
  | _, [] => []
  | keyIndex, c :: cs =>
    if jsToUpper c ∈ upperAlphabetL then
      f keyIndex c :: cipherGo f (keyIndex + 1) cs
    else
      c :: cipherGo f keyIndex cs

/-- Beaufort substitution on an uppercase letter `u`:
`alphabet[(keyCharIndex - charIndex + 26) % 26]`, with
`keyChar = normalizedKey[keyIndex % normalizedKey.length]`.  The subtraction
is written with the subtrahend last; both orders agree because
`charIndex < 26 ≤ keyCharIndex + 26`. -/
def beaufortMap (normalizedKey : List Char) (keyIndex : Nat) (u : Char) : Char :=
  let charIndex := upperAlphabetL.indexOf u
  let keyCharIndex :=
    upperAlphabetL.indexOf (normalizedKey.getD (keyIndex % normalizedKey.length) 'A')
  upperAlphabetL.getD ((keyCharIndex + 26 - charIndex) % 26) 'A'

/-- One `decryptBeaufort` loop body for an alphabet character. -/
def beaufortChar (normalizedKey : List Char) (keyIndex : Nat) : Char → Char :=
  caseKeep (beaufortMap normalizedKey keyIndex)

/-- The character loop of `decryptBeaufort`. -/
def beaufortGo (normalizedKey : List Char) : Nat → List Char → List Char :=
  cipherGo (beaufortChar normalizedKey)

/-- `decryptBeaufort` from `src/lib/crypto-utils.ts`. -/
def decryptBeaufort (ciphertext key : List Char) : List Char :=
  let normalizedKey := normalizeKey key
  if normalizedKey.length = 0 then
    "Error: Key must contain at least one letter".toList
  else
    beaufortGo normalizedKey 0 ciphertext

/-- Vigenère substitution on an uppercase letter `u`:
`(charIndex + keyCharIndex) % 26` when encrypting,
`(charIndex - keyCharIndex + 26) % 26` when decrypting (written with the
subtrahend last; both orders agree because `keyCharIndex < 26`). -/
def vigenereMap (normalizedKey : List Char) (decrypt : Bool) (keyIndex : Nat)
    (u : Char) : Char :=
  let charIndex := upperAlphabetL.indexOf u
  let keyCharIndex :=
    upperAlphabetL.indexOf (normalizedKey.getD (keyIndex % normalizedKey.length) 'A')
  let newIndex :=
    if decrypt then (charIndex + 26 - keyCharIndex) % 26
    else (charIndex + keyCharIndex) % 26
  upperAlphabetL.getD newIndex 'A'

/-- One `vigenereCipher` loop body for an alphabet character. -/
def vigenereChar (normalizedKey : List Char) (decrypt : Bool) (keyIndex : Nat) :
    Char → Char :=
  caseKeep (vigenereMap normalizedKey decrypt keyIndex)

/-- The character loop of `vigenereCipher`. -/
def vigenereGo (normalizedKey : List Char) (decrypt : Bool) :
    Nat → List Char → List Char :=
  cipherGo (vigenereChar normalizedKey decrypt)

/-- `vigenereCipher` from `src/lib/crypto-utils.ts`. -/
def vigenereCipher (text key : List Char) (decrypt : Bool) : List Char :=
  let normalizedKey := normalizeKey key
  if normalizedKey.length = 0 then
    "Error: Key must contain at least one letter".toList
  else
    vigenereGo normalizedKey decrypt 0 text

/-- A character is an ASCII letter. -/
def isAsciiLetter (c : Char) : Bool :=
  decide (c ∈ upperAlphabetL) || decide (c ∈ lowerAlphabetL)

/-! ## VIC cipher (`decryptVIC` in `src/lib/crypto-utils.ts`)

The straddling checkerboard is a JavaScript `Map`; it is modelled as an
association list with `Map.set` replace-in-place semantics. -/

/-- `Map.set`: replace the value of an existing key in place, else append. -/
def mapSet (m : List (String × Char)) (k : String) (v : Char) : List (String × Char) :=
  match m with
  | [] => [(k, v)]
  | (k0, v0) :: rest => if k0 = k then (k, v) :: rest else (k0, v0) :: mapSet rest k v

/-- `Map.get` (first matching key; keys are unique by construction). -/
def mapGet : List (String × Char) → String → Option Char
  | [], _ => none
  | (k0, v0) :: rest, k => if k0 = k then some v0 else mapGet rest k

/-- `[0,…,9].filter((d) => d !== digitRow1 && d !== digitRow2)`. -/
def vicSingleDigits (d1 d2 : Nat) : List Nat :=
  [0, 1, 2, 3, 4, 5, 6, 7, 8, 9].filter (fun d => d ≠ d1 ∧ d ≠ d2)

/-- The single-digit codes of the checkerboard, as strings. -/
def singleKeys (d1 d2 : Nat) : List String :=
  (vicSingleDigits d1 d2).map (fun d => toString d)

/-- The two-digit codes `${d}${i}` for `i = 0, …, 9`. -/
def pairKeys (d : Nat) : List String :=
  (List.range 10).map (fun i => toString d ++ toString i)

/-- One assignment loop of `decryptVIC`:
`for key: if (alphabetIndex < cleanAlphabet.length) set(key, cleanAlphabet[alphabetIndex++])`. -/
def vicAssignRow (cleanAlphabet : List Char) :
    List String → List (String × Char) → Nat → List (String × Char) × Nat
  | [], m, idx => (m, idx)
  | key :: keys, m, idx =>
    if idx < cleanAlphabet.length then
      vicAssignRow cleanAlphabet keys (mapSet m key (cleanAlphabet.getD idx ' ')) (idx + 1)
    else
      vicAssignRow cleanAlphabet keys m idx

/-- The straddling checkerboard of `decryptVIC`: single-digit codes first,
then the `digitRow1` block, then the `digitRow2` block. -/
def vicCharMap (alphabet : List Char) (d1 d2 : Nat) : List (String × Char) :=
  let cleanAlphabet := alphabet.map jsToUpper
  let r1 := vicAssignRow cleanAlphabet (singleKeys d1 d2) [] 0
  let r2 := vicAssignRow cleanAlphabet (pairKeys d1) r1.1 r1.2
  let r3 := vicAssignRow cleanAlphabet (pairKeys d2) r2.1 r2.2
  r3.1

/-- The decode loop of `decryptVIC`: an escape digit consumes the following
digit as a two-digit code (or just ends if it is the final character);
unmapped codes are skipped. -/
def vicDecode (m : List (String × Char)) (d1 d2 : Nat) : List Char → List Char
  | [] => []
  | c :: rest =>
    if String.mk [c] = toString d1 ∨ String.mk [c] = toString d2 then
      match rest with
      | r1 :: rest2 =>
        (match mapGet m (String.mk [c, r1]) with
         | some ch => [ch]
         | none => []) ++ vicDecode m d1 d2 rest2
      | [] => []
    else
      (match mapGet m (String.mk [c]) with
       | some ch => [ch]
       | none => []) ++ vicDecode m d1 d2 rest

/-- `decryptVIC` from `src/lib/crypto-utils.ts` (whitespace stripped from
the digit string; empty result replaced by the sentinel text). -/
def decryptVIC (numbers alphabet : List Char) (d1 d2 : Nat) : List Char :=
  let digits := numbers.filter (fun c => ¬ c.isWhitespace)
  let m := vicCharMap alphabet d1 d2
  let result := vicDecode m d1 d2 digits
  if result = [] then "Unable to decode. Check alphabet and digit assignments.".toList
  else result

/-! ## Spiral matrix traversal (`readSpiralMatrix` in `src/lib/crypto-utils.ts`)

The four bounds `top/bottom/left/right` are JavaScript numbers that can
reach -1 (`bottom--`/`right--` at 0), so they are modelled as `Int`. -/

/-- The integers `a, a+1, …, b` (empty when `b < a`). -/
def intRange (a b : Int) : List Int :=
  (List.range (b + 1 - a).toNat).map (fun (n : Nat) => a + (n : Int))

/-- `matrix[i][j]` (indices in the traversal are always in range for the
rectangular matrices handled; the defaults model JavaScript's lenient
indexing). -/
def getCell (m : List (List Nat)) (i j : Int) : Nat :=
  (m.getD i.toNat []).getD j.toNat 0

/-- Row `r`, columns `a` to `b` left to right. -/
def rowSeg (m : List (List Nat)) (r a b : Int) : List Nat :=
  (intRange a b).map (fun j => getCell m r j)

/-- Column `c`, rows `a` to `b` top to bottom. -/
def colSeg (m : List (List Nat)) (c a b : Int) : List Nat :=
  (intRange a b).map (fun i => getCell m i c)

/-- The `while (top <= bottom && left <= right)` loop of `readSpiralMatrix`,
one iteration per fuel unit (the caller passes `rows + cols`, ample since
every iteration shrinks `bottom - top + right - left` by at least two).
Descending `for` loops are the reverses of the ascending segments. -/
def spiralLoop (m : List (List Nat)) (ccw : Bool) :
    Nat → Int → Int → Int → Int → List Nat
  | 0, _, _, _, _ => []
  | fuel + 1, top, bottom, left, right =>
    if top ≤ bottom ∧ left ≤ right then
      match ccw with
      | true =>
        let s1 := colSeg m left top bottom
        let left1 := left + 1
        let s2 := rowSeg m bottom left1 right
        let bottom1 := bottom - 1
        let s3 := if left1 ≤ right then (colSeg m right top bottom1).reverse else []
        let right1 := if left1 ≤ right then right - 1 else right
        let s4 := if top ≤ bottom1 then (rowSeg m top left1 right1).reverse else []
        let top1 := if top ≤ bottom1 then top + 1 else top
        s1 ++ s2 ++ s3 ++ s4 ++ spiralLoop m ccw fuel top1 bottom1 left1 right1
      | false =>
        let s1 := rowSeg m top left right
        let top1 := top + 1
        let s2 := colSeg m right top1 bottom
        let right1 := right - 1
        let s3 := if top1 ≤ bottom then (rowSeg m bottom left right1).reverse else []
        let bottom1 := if top1 ≤ bottom then bottom - 1 else bottom
        let s4 := if left ≤ right1 then (colSeg m left top1 bottom1).reverse else []
        let left1 := if left ≤ right1 then left + 1 else left
        s1 ++ s2 ++ s3 ++ s4 ++ spiralLoop m ccw fuel top1 bottom1 left1 right1
    else []

/-- The cell sequence produced by the spiral walk over a whole matrix. -/
def spiralList (matrix : List (List Nat)) (counterClockwise : Bool) : List Nat :=
  let rows := matrix.length
  let cols := (matrix.getD 0 []).length
  spiralLoop matrix counterClockwise (rows + cols) 0 ((rows : Int) - 1) 0 ((cols : Int) - 1)

/-- `result.join("")`: concatenation of the decimal representations. -/
def joinDigits : List Nat → List Char
  | [] => []
  | n :: rest => (toString n).toList ++ joinDigits rest

/-- `readSpiralMatrix` from `src/lib/crypto-utils.ts`. -/
def readSpiralMatrix (matrix : List (List Nat)) (counterClockwise : Bool) : String :=
  if matrix.length = 0 then "" else String.mk (joinDigits (spiralList matrix counterClockwise))

/-- The cells of the sub-rectangle with rows `top…bottom` and columns
`left…right`, row-major: the reference against which the spiral walk is
compared. -/
def rectCells (m : List (List Nat)) (top bottom left right : Int) : List Nat :=
  (intRange top bottom).flatMap (fun i => rowSeg m i left right)

/-! ## `parsePrivateKey` (`src/lib/web-scraper.ts`)

The format-detection regular expressions are modelled as decidable
predicates with the same character classes and length bounds. -/

/-- `input.trim()` (strip leading and trailing whitespace). -/
def jsTrim (s : List Char) : List Char :=
  ((s.dropWhile Char.isWhitespace).reverse.dropWhile Char.isWhitespace).reverse

/-- The character class `[a-fA-F0-9]`. -/
def isHexDigit (c : Char) : Prop :=
  (48 ≤ c.toNat ∧ c.toNat ≤ 57) ∨ (97 ≤ c.toNat ∧ c.toNat ≤ 102) ∨
    (65 ≤ c.toNat ∧ c.toNat ≤ 70)

instance (c : Char) : Decidable (isHexDigit c) := by
  unfold isHexDigit
  infer_instance

/-- The character class `\d`. -/
def isDigitC (c : Char) : Prop := 48 ≤ c.toNat ∧ c.toNat ≤ 57

instance (c : Char) : Decidable (isDigitC c) := by
  unfold isDigitC
  infer_instance

/-- `/^[a-fA-F0-9]{64}$/`. -/
def regexHex64 (s : List Char) : Prop := s.length = 64 ∧ ∀ c ∈ s, isHexDigit c

instance (s : List Char) : Decidable (regexHex64 s) := by
  unfold regexHex64
  infer_instance

/-- `/^[5KL][1-9A-HJ-NP-Za-km-z]{50,51}$/` (the tail class is exactly the
Base58 alphabet). -/
def regexWif (s : List Char) : Prop :=
  (s.getD 0 ' ' = '5' ∨ s.getD 0 ' ' = 'K' ∨ s.getD 0 ' ' = 'L') ∧
    (s.length = 51 ∨ s.length = 52) ∧ ∀ c ∈ s.tail, c ∈ b58Alphabet

instance (s : List Char) : Decidable (regexWif s) := by
  unfold regexWif
  infer_instance

/-- `/^\d+$/`. -/
def regexDecimal (s : List Char) : Prop := s ≠ [] ∧ ∀ c ∈ s, isDigitC c

instance (s : List Char) : Decidable (regexDecimal s) := by
  unfold regexDecimal
  infer_instance

/-- `/^[01]+$/`. -/
def regexBinary (s : List Char) : Prop := s ≠ [] ∧ ∀ c ∈ s, c = '0' ∨ c = '1'

instance (s : List Char) : Decidable (regexBinary s) := by
  unfold regexBinary
  infer_instance

/-- `/^0x[a-fA-F0-9]{1,64}$/`. -/
def regexHex0x (s : List Char) : Prop :=
  2 ≤ s.length ∧ s.getD 0 ' ' = '0' ∧ s.getD 1 ' ' = 'x' ∧
    1 ≤ s.length - 2 ∧ s.length - 2 ≤ 64 ∧ ∀ c ∈ s.drop 2, isHexDigit c

instance (s : List Char) : Decidable (regexHex0x s) := by
  unfold regexHex0x
  infer_instance

/-- `BigInt` of a decimal digit string. -/
def digitsToNat (s : List Char) : Nat :=
  s.foldl (fun a c => a * 10 + (c.toNat - 48)) 0

/-- `BigInt("0b" + s)` of a bit string. -/
def bitsToNat (s : List Char) : Nat :=
  s.foldl (fun a c => a * 2 + (c.toNat - 48)) 0

/-- `bn.toString(16)`: lowercase hexadecimal representation (`fuel` bounds
the recursion depth; callers pass `n` itself, far above the hex digit
count). -/
def hexRepr : Nat → Nat → List Char
  | 0, n => [hexChars.getD (n % 16) '0']
  | fuel + 1, n =>
    if n < 16 then [hexChars.getD n '0']
    else hexRepr fuel (n / 16) ++ [hexChars.getD (n % 16) '0']

/-- `.padStart(64, "0")`. -/
def padStart64 (s : List Char) : List Char :=
  List.replicate (64 - s.length) '0' ++ s

/-- The result record of `parsePrivateKey`. -/
structure ParsedKey where
  privateKeyHex : List Char
  format : String
  error : Option String
deriving DecidableEq

/-- `parsePrivateKey` from `src/lib/web-scraper.ts`: try 64-char hex, WIF,
decimal (rejected when the padded hex exceeds 64 characters — the branch
then falls through), bitstring of at most 256 bits, and `0x`-prefixed hex,
in that order. -/
def parsePrivateKey (input : List Char) : ParsedKey :=
  let cleaned := jsTrim input
  if regexHex64 cleaned then
    ⟨cleaned.map jsToLower, "hex", none⟩
  else if regexWif cleaned then
    match wifToPrivateKey cleaned with
    | Except.ok (privateKey, _, _) => ⟨privateKey, "wif", none⟩
    | Except.error _ => ⟨[], "unknown", some "Invalid WIF format"⟩
  else
    let tryDecimal : Option ParsedKey :=
      if regexDecimal cleaned then
        let bn := digitsToNat cleaned
        let hex := padStart64 (hexRepr bn bn)
        if hex.length ≤ 64 then some ⟨hex, "decimal", none⟩ else none
      else none
    match tryDecimal with
    | some res => res
    | none =>
      if regexBinary cleaned ∧ cleaned.length ≤ 256 then
        let bn := bitsToNat cleaned
        ⟨padStart64 (hexRepr bn bn), "binary", none⟩
      else if regexHex0x cleaned then
        ⟨padStart64 (cleaned.drop 2) |>.map jsToLower, "hex", none⟩
      else
        ⟨[], "unknown", some "Could not parse private key format"⟩

/-! ## Symmetric decryption module (`decryptAES256CBC` in
`src/lib/crypto-utils.ts`)

Node's `Buffer.from(_, "base64")`, UTF-8 conversion, and
`crypto.createDecipheriv("aes-256-cbc", …)` are modelled by full executable
implementations: a lenient Base64 decoder, UTF-8 codecs (invalid sequences
become U+FFFD), and the AES-256 inverse cipher in CBC mode with PKCS#7
unpadding. -/

def b64Alphabet : List Char :=
  "ABCDEFGHIJKLMNOPQRSTUVWXYZabcdefghijklmnopqrstuvwxyz0123456789+/".toList

/-- Decode a run of 6-bit values into bytes (trailing group of 2 or 3
values yields 1 or 2 bytes, as in Node's lenient decoder). -/
def b64Groups : List Nat → List Nat
  | a :: b :: c :: d :: rest =>
    (a * 4 + b / 16) :: ((b % 16) * 16 + c / 4) :: ((c % 4) * 64 + d) :: b64Groups rest
  | [a, b] => [a * 4 + b / 16]
  | [a, b, c] => [a * 4 + b / 16, (b % 16) * 16 + c / 4]
  | _ => []

/-- `Buffer.from(s, "base64")`: characters outside the alphabet (including
`=` padding and whitespace) are skipped, never an error. -/
def base64DecodeBytes (s : List Char) : List Nat :=
  b64Groups (s.filterMap (fun c =>
    if c ∈ b64Alphabet then some (b64Alphabet.indexOf c) else none))

/-- UTF-8 encoding of one character. -/
def utf8EncodeChar (c : Char) : List Nat :=
  let n := c.toNat
  if n < 0x80 then [n]
  else if n < 0x800 then [0xc0 + n / 64, 0x80 + n % 64]
  else if n < 0x10000 then [0xe0 + n / 4096, 0x80 + n / 64 % 64, 0x80 + n % 64]
  else [0xf0 + n / 262144, 0x80 + n / 4096 % 64, 0x80 + n / 64 % 64, 0x80 + n % 64]

/-- UTF-8 encoding of a string (Node's `Buffer` view of a JS string). -/
def utf8Encode (s : List Char) : List Nat := s.flatMap utf8EncodeChar

/-- The replacement character U+FFFD emitted for invalid UTF-8 input. -/
def replChar : Char := Char.ofNat 0xfffd

/-- Make a character from a decoded code point, replacing invalid ones. -/
def mkChar (n : Nat) : Char := if Nat.isValidChar n then Char.ofNat n else replChar

/-- Lenient UTF-8 decoding worker: malformed or truncated sequences produce
U+FFFD and resynchronise at the offending byte. Each step consumes at least
one input byte, so fuel = input length is ample. -/
def utf8DecodeGo : Nat → List Nat → List Char
  | 0, _ => []
  | _ + 1, [] => []
  | fuel + 1, b :: rest =>
    if b < 0x80 then mkChar b :: utf8DecodeGo fuel rest
    else if 0xc2 ≤ b ∧ b ≤ 0xdf then
      match rest with
      | b2 :: rest2 =>
        if 0x80 ≤ b2 ∧ b2 ≤ 0xbf then
          mkChar ((b - 0xc0) * 64 + (b2 - 0x80)) :: utf8DecodeGo fuel rest2
        else replChar :: utf8DecodeGo fuel rest
      | [] => [replChar]
    else if 0xe0 ≤ b ∧ b ≤ 0xef then
      match rest with
      | b2 :: b3 :: rest3 =>
        if 0x80 ≤ b2 ∧ b2 ≤ 0xbf ∧ 0x80 ≤ b3 ∧ b3 ≤ 0xbf then
          mkChar ((b - 0xe0) * 4096 + (b2 - 0x80) * 64 + (b3 - 0x80)) ::
            utf8DecodeGo fuel rest3
        else replChar :: utf8DecodeGo fuel rest
      | _ => [replChar]
    else if 0xf0 ≤ b ∧ b ≤ 0xf4 then
      match rest with
      | b2 :: b3 :: b4 :: rest4 =>
        if 0x80 ≤ b2 ∧ b2 ≤ 0xbf ∧ 0x80 ≤ b3 ∧ b3 ≤ 0xbf ∧ 0x80 ≤ b4 ∧ b4 ≤ 0xbf then
          mkChar ((b - 0xf0) * 262144 + (b2 - 0x80) * 4096 + (b3 - 0x80) * 64 +
            (b4 - 0x80)) :: utf8DecodeGo fuel rest4
        else replChar :: utf8DecodeGo fuel rest
      | _ => [replChar]
    else replChar :: utf8DecodeGo fuel rest

/-- Lenient UTF-8 decoding (models `buffer.toString("utf8")`). -/
def utf8Decode (bs : List Nat) : List Char := utf8DecodeGo bs.length bs

/-! ### AES-256 inverse cipher -/

def aesSbox : List Nat :=
  [0x63, 0x7c, 0x77, 0x7b, 0xf2, 0x6b, 0x6f, 0xc5,
   0x30, 0x01, 0x67, 0x2b, 0xfe, 0xd7, 0xab, 0x76,
   0xca, 0x82, 0xc9, 0x7d, 0xfa, 0x59, 0x47, 0xf0,
   0xad, 0xd4, 0xa2, 0xaf, 0x9c, 0xa4, 0x72, 0xc0,
   0xb7, 0xfd, 0x93, 0x26, 0x36, 0x3f, 0xf7, 0xcc,
   0x34, 0xa5, 0xe5, 0xf1, 0x71, 0xd8, 0x31, 0x15,
   0x04, 0xc7, 0x23, 0xc3, 0x18, 0x96, 0x05, 0x9a,
   0x07, 0x12, 0x80, 0xe2, 0xeb, 0x27, 0xb2, 0x75,
   0x09, 0x83, 0x2c, 0x1a, 0x1b, 0x6e, 0x5a, 0xa0,
   0x52, 0x3b, 0xd6, 0xb3, 0x29, 0xe3, 0x2f, 0x84,
   0x53, 0xd1, 0x00, 0xed, 0x20, 0xfc, 0xb1, 0x5b,
   0x6a, 0xcb, 0xbe, 0x39, 0x4a, 0x4c, 0x58, 0xcf,
   0xd0, 0xef, 0xaa, 0xfb, 0x43, 0x4d, 0x33, 0x85,
   0x45, 0xf9, 0x02, 0x7f, 0x50, 0x3c, 0x9f, 0xa8,
   0x51, 0xa3, 0x40, 0x8f, 0x92, 0x9d, 0x38, 0xf5,
   0xbc, 0xb6, 0xda, 0x21, 0x10, 0xff, 0xf3, 0xd2,
   0xcd, 0x0c, 0x13, 0xec, 0x5f, 0x97, 0x44, 0x17,
   0xc4, 0xa7, 0x7e, 0x3d, 0x64, 0x5d, 0x19, 0x73,
   0x60, 0x81, 0x4f, 0xdc, 0x22, 0x2a, 0x90, 0x88,
   0x46, 0xee, 0xb8, 0x14, 0xde, 0x5e, 0x0b, 0xdb,
   0xe0, 0x32, 0x3a, 0x0a, 0x49, 0x06, 0x24, 0x5c,
   0xc2, 0xd3, 0xac, 0x62, 0x91, 0x95, 0xe4, 0x79,
   0xe7, 0xc8, 0x37, 0x6d, 0x8d, 0xd5, 0x4e, 0xa9,
   0x6c, 0x56, 0xf4, 0xea, 0x65, 0x7a, 0xae, 0x08,
   0xba, 0x78, 0x25, 0x2e, 0x1c, 0xa6, 0xb4, 0xc6,
   0xe8, 0xdd, 0x74, 0x1f, 0x4b, 0xbd, 0x8b, 0x8a,
   0x70, 0x3e, 0xb5, 0x66, 0x48, 0x03, 0xf6, 0x0e,
   0x61, 0x35, 0x57, 0xb9, 0x86, 0xc1, 0x1d, 0x9e,
   0xe1, 0xf8, 0x98, 0x11, 0x69, 0xd9, 0x8e, 0x94,
   0x9b, 0x1e, 0x87, 0xe9, 0xce, 0x55, 0x28, 0xdf,
   0x8c, 0xa1, 0x89, 0x0d, 0xbf, 0xe6, 0x42, 0x68,
   0x41, 0x99, 0x2d, 0x0f, 0xb0, 0x54, 0xbb, 0x16]

def aesInvSbox : List Nat :=
  [0x52, 0x09, 0x6a, 0xd5, 0x30, 0x36, 0xa5, 0x38,
   0xbf, 0x40, 0xa3, 0x9e, 0x81, 0xf3, 0xd7, 0xfb,
   0x7c, 0xe3, 0x39, 0x82, 0x9b, 0x2f, 0xff, 0x87,
   0x34, 0x8e, 0x43, 0x44, 0xc4, 0xde, 0xe9, 0xcb,
   0x54, 0x7b, 0x94, 0x32, 0xa6, 0xc2, 0x23, 0x3d,
   0xee, 0x4c, 0x95, 0x0b, 0x42, 0xfa, 0xc3, 0x4e,
   0x08, 0x2e, 0xa1, 0x66, 0x28, 0xd9, 0x24, 0xb2,
   0x76, 0x5b, 0xa2, 0x49, 0x6d, 0x8b, 0xd1, 0x25,
   0x72, 0xf8, 0xf6, 0x64, 0x86, 0x68, 0x98, 0x16,
   0xd4, 0xa4, 0x5c, 0xcc, 0x5d, 0x65, 0xb6, 0x92,
   0x6c, 0x70, 0x48, 0x50, 0xfd, 0xed, 0xb9, 0xda,
   0x5e, 0x15, 0x46, 0x57, 0xa7, 0x8d, 0x9d, 0x84,
   0x90, 0xd8, 0xab, 0x00, 0x8c, 0xbc, 0xd3, 0x0a,
   0xf7, 0xe4, 0x58, 0x05, 0xb8, 0xb3, 0x45, 0x06,
   0xd0, 0x2c, 0x1e, 0x8f, 0xca, 0x3f, 0x0f, 0x02,
   0xc1, 0xaf, 0xbd, 0x03, 0x01, 0x13, 0x8a, 0x6b,
   0x3a, 0x91, 0x11, 0x41, 0x4f, 0x67, 0xdc, 0xea,
   0x97, 0xf2, 0xcf, 0xce, 0xf0, 0xb4, 0xe6, 0x73,
   0x96, 0xac, 0x74, 0x22, 0xe7, 0xad, 0x35, 0x85,
   0xe2, 0xf9, 0x37, 0xe8, 0x1c, 0x75, 0xdf, 0x6e,
   0x47, 0xf1, 0x1a, 0x71, 0x1d, 0x29, 0xc5, 0x89,
   0x6f, 0xb7, 0x62, 0x0e, 0xaa, 0x18, 0xbe, 0x1b,
   0xfc, 0x56, 0x3e, 0x4b, 0xc6, 0xd2, 0x79, 0x20,
   0x9a, 0xdb, 0xc0, 0xfe, 0x78, 0xcd, 0x5a, 0xf4,
   0x1f, 0xdd, 0xa8, 0x33, 0x88, 0x07, 0xc7, 0x31,
   0xb1, 0x12, 0x10, 0x59, 0x27, 0x80, 0xec, 0x5f,
   0x60, 0x51, 0x7f, 0xa9, 0x19, 0xb5, 0x4a, 0x0d,
   0x2d, 0xe5, 0x7a, 0x9f, 0x93, 0xc9, 0x9c, 0xef,
   0xa0, 0xe0, 0x3b, 0x4d, 0xae, 0x2a, 0xf5, 0xb0,
   0xc8, 0xeb, 0xbb, 0x3c, 0x83, 0x53, 0x99, 0x61,
   0x17, 0x2b, 0x04, 0x7e, 0xba, 0x77, 0xd6, 0x26,
   0xe1, 0x69, 0x14, 0x63, 0x55, 0x21, 0x0c, 0x7d]

/-- GF(2^8) multiplication (double-and-add over 8 bits of `b`). -/
def gmul : Nat → Nat → Nat → Nat
  | 0, _, _ => 0
  | fuel + 1, a, b =>
    if b = 0 then 0
    else
      (if b % 2 = 1 then a else 0) ^^^
        gmul fuel (if 128 ≤ a then (a * 2) ^^^ 0x11b else a * 2) (b / 2)

def aesRcon : List Nat :=
  [0x01000000, 0x02000000, 0x04000000, 0x08000000, 0x10000000, 0x20000000,
   0x40000000]

/-- Apply the S-box to each byte of a 32-bit word. -/
def subWord (w : Nat) : Nat :=
  aesSbox.getD (w >>> 24 % 256) 0 <<< 24 ||| aesSbox.getD (w >>> 16 % 256) 0 <<< 16 |||
    aesSbox.getD (w >>> 8 % 256) 0 <<< 8 ||| aesSbox.getD (w % 256) 0

def rotWord (w : Nat) : Nat := w32 (w <<< 8 ||| w >>> 24)

/-- One step of the AES-256 key schedule (`ws` holds the words so far). -/
def keyExpansionStep (ws : List Nat) : List Nat :=
  let i := ws.length
  let temp := ws.getD (i - 1) 0
  let temp :=
    if i % 8 = 0 then subWord (rotWord temp) ^^^ aesRcon.getD (i / 8 - 1) 0
    else if i % 8 = 4 then subWord temp
    else temp
  ws ++ [temp ^^^ ws.getD (i - 8) 0]

/-- Extend the key schedule by `fuel` words. -/
def keyExpansionLoop : Nat → List Nat → List Nat
  | 0, ws => ws
  | fuel + 1, ws => keyExpansionLoop fuel (keyExpansionStep ws)

/-- The 60-word AES-256 key schedule of a 32-byte key. -/
def expandKey (key : List Nat) : List Nat :=
  keyExpansionLoop 52 (bytesToWordsBE key)

/-- The 16 bytes of round key `r`, in state order. -/
def roundKeyBytes (words : List Nat) (r : Nat) : List Nat :=
  (List.range 4).flatMap (fun c => be32 (words.getD (4 * r + c) 0))

def xorBytes (a b : List Nat) : List Nat := List.zipWith (fun x y => x ^^^ y) a b

/-- `InvShiftRows` as a position permutation of the 16 state bytes. -/
def invShiftRowsPerm : List Nat :=
  [0, 13, 10, 7, 4, 1, 14, 11, 8, 5, 2, 15, 12, 9, 6, 3]

def invShiftRows (st : List Nat) : List Nat :=
  invShiftRowsPerm.map (fun i => st.getD i 0)

def invSubBytes (st : List Nat) : List Nat := st.map (fun b => aesInvSbox.getD b 0)

def invMixColumns (st : List Nat) : List Nat :=
  (List.range 4).flatMap (fun c =>
    let s0 := st.getD (4 * c) 0
    let s1 := st.getD (4 * c + 1) 0
    let s2 := st.getD (4 * c + 2) 0
    let s3 := st.getD (4 * c + 3) 0
    [gmul 8 s0 14 ^^^ gmul 8 s1 11 ^^^ gmul 8 s2 13 ^^^ gmul 8 s3 9,
     gmul 8 s0 9 ^^^ gmul 8 s1 14 ^^^ gmul 8 s2 11 ^^^ gmul 8 s3 13,
     gmul 8 s0 13 ^^^ gmul 8 s1 9 ^^^ gmul 8 s2 14 ^^^ gmul 8 s3 11,
     gmul 8 s0 11 ^^^ gmul 8 s1 13 ^^^ gmul 8 s2 9 ^^^ gmul 8 s3 14])

/-- The inner inverse rounds `r, r-1, …, 1`. -/
def invRounds (words : List Nat) : Nat → List Nat → List Nat
  | 0, st => st
  | r + 1, st =>
    invRounds words r
      (invMixColumns (xorBytes (invSubBytes (invShiftRows st)) (roundKeyBytes words (r + 1))))

/-- AES-256 decryption of one 16-byte block. -/
def aesDecryptBlock (words : List Nat) (blk : List Nat) : List Nat :=
  let st := xorBytes blk (roundKeyBytes words 14)
  let st := invRounds words 13 st
  xorBytes (invSubBytes (invShiftRows st)) (roundKeyBytes words 0)

/-- CBC chaining over whole blocks (fuel = number of blocks). -/
def cbcDecryptBlocks (words : List Nat) : Nat → List Nat → List Nat → List Nat
  | 0, _, _ => []
  | fuel + 1, prev, ct =>
    if ct.isEmpty then []
    else
      let blk := ct.take 16
      xorBytes (aesDecryptBlock words blk) prev ++
        cbcDecryptBlocks words fuel blk (ct.drop 16)

/-- PKCS#7 unpadding; invalid padding is the `bad decrypt` error. -/
def pkcs7Unpad (p : List Nat) : Except String (List Nat) :=
  match p.getLast? with
  | none => Except.error "bad decrypt"
  | some pad =>
    if 1 ≤ pad ∧ pad ≤ 16 ∧ pad ≤ p.length ∧
        ∀ b ∈ p.drop (p.length - pad), b = pad then
      Except.ok (p.take (p.length - pad))
    else Except.error "bad decrypt"

/-- `decipher.update(ciphertext)` + `decipher.final()` for AES-256-CBC: a
ciphertext that is empty or not a whole number of blocks throws, as does
bad padding. -/
def aesCbcDecrypt (key iv ct : List Nat) : Except String (List Nat) :=
  if ct.length = 0 ∨ ct.length % 16 ≠ 0 then
    Except.error "wrong final block length"
  else
    pkcs7Unpad (cbcDecryptBlocks (expandKey key) (ct.length / 16) iv ct)

/-- `EVP_BytesToKey` digest accumulation: `digest = MD5(digest ‖ password ‖
salt)` repeated; each round contributes 16 bytes, so the fuel passed by
`evpBytesToKey` (`⌈(keyLen+ivLen)/16⌉`) matches the `while totalLen <
keyLen + ivLen` loop exactly. -/
def evpAccum (password salt : List Nat) : Nat → List Nat → List Nat
  | 0, _ => []
  | fuel + 1, digest =>
    let d := md5 (digest ++ password ++ salt)
    d ++ evpAccum password salt fuel d

/-- `evpBytesToKey` from `src/lib/crypto-utils.ts`. -/
def evpBytesToKey (password salt : List Nat) (keyLen ivLen : Nat) :
    List Nat × List Nat :=
  let combined := evpAccum password salt ((keyLen + ivLen + 15) / 16) []
  (combined.take keyLen, (combined.drop keyLen).take ivLen)

/-- The ASCII bytes of `"Salted__"`. -/
def saltedMagic : List Nat := [0x53, 0x61, 0x6c, 0x74, 0x65, 0x64, 0x5f, 0x5f]

/-- The body of `decryptAES256CBC` up to the `catch`: every failure is an
`Except.error` carrying the underlying message. -/
def decryptAES256CBCBody (encrypted password : List Char) :
    Except String (List Char) := do
  let keyMaterial :=
    if password.length = 64 ∧ ∀ c ∈ password, isHexDigit c then hexToBytes password
    else sha256 (utf8Encode password)
  let encryptedBuffer := base64DecodeBytes encrypted
  let saltedHeader := encryptedBuffer.take 8
  let salt := if saltedHeader = saltedMagic then (encryptedBuffer.drop 8).take 8
    else List.replicate 8 0
  let ciphertext := if saltedHeader = saltedMagic then encryptedBuffer.drop 16
    else encryptedBuffer
  let kv := evpBytesToKey keyMaterial salt 32 16
  let decrypted ← aesCbcDecrypt kv.1 kv.2 ciphertext
  return utf8Decode decrypted

/-- `decryptAES256CBC` from `src/lib/crypto-utils.ts`: the whole body runs
inside `try { … } catch`, so every internal failure surfaces as the tagged
error string. -/
def decryptAES256CBC (encrypted password : List Char) : List Char :=
  match decryptAES256CBCBody encrypted password with
  | Except.ok s => s
  | Except.error message => ("AES-256-CBC Decryption Error: " ++ message).toList

end V0BTC

/-- C1: the spec claims `base58Decode (base58Encode b) = b` for every byte
sequence `b`.  The code refutes it: for `b = [1, 0]` the encoder produces
`"5R"`, which the decoder maps to `[82, 0]`, not `[1, 0]` (the decode loop
re-processes the byte it pushes mid-pass and re-adds the digit value at every
position). -/
theorem c1_base58_roundtrip_fails_on_code :
    V0BTC.base58Decode (V0BTC.base58Encode [1, 0]) = Except.ok [82, 0] ∧
      ([82, 0] : List Nat) ≠ [1, 0] := by
  constructor
  · rfl
  · decide

set_option maxRecDepth 100000

/-- C2: the spec claims the WIF round-trip
`wifToPrivateKey (privateKeyToWIF k true true)` recovers every 32-byte key
`k`.  The code refutes it: already for the key of scalar 1 the decoder
(built on the broken `base58Decode`) produces a garbled byte list whose
checksum does not verify, so `wifToPrivateKey` throws `Invalid WIF checksum`
instead of returning the key. -/
theorem c2_wif_roundtrip_fails_on_code :
    V0BTC.wifToPrivateKey (V0BTC.privateKeyToWIF
        ("0000000000000000000000000000000000000000000000000000000000000001".toList)
        true true) =
      Except.error "Invalid WIF checksum" := by
  rfl

/-- C3: `privateKeyToAddress` on the private key of scalar 1 (64-hex-char
form `0000…01`) with `compressed = true` yields exactly the documented
compressed address `1BgGZ9tcN4rm9KBzDn7KprQz87SZ26SAMH`. -/
theorem c3_privateKeyToAddress_scalar_one :
    V0BTC.privateKeyToAddress
        ("0000000000000000000000000000000000000000000000000000000000000001".toList)
        true =
      Except.ok ("1BgGZ9tcN4rm9KBzDn7KprQz87SZ26SAMH".toList) := by
  rfl

namespace V0BTC

/-- Catalogue of decidable facts about the 26 uppercase letters. -/
lemma upperFacts : ∀ c ∈ upperAlphabetL,
    jsToUpper c = c ∧ jsToLower c ∈ lowerAlphabetL ∧ jsToUpper (jsToLower c) = c ∧
    jsToLower c ≠ c ∧ upperAlphabetL.indexOf c < 26 ∧
    upperAlphabetL.getD (upperAlphabetL.indexOf c) 'A' = c := by decide

/-- Catalogue of decidable facts about the 26 lowercase letters. -/
lemma lowerFacts : ∀ c ∈ lowerAlphabetL,
    jsToUpper c ∈ upperAlphabetL ∧ jsToUpper c ≠ c ∧ jsToLower (jsToUpper c) = c := by
  decide

/-- The alphabet entry at each index `i < 26` is an uppercase letter whose
index is `i`. -/
lemma rangeFacts : ∀ i ∈ List.range 26,
    upperAlphabetL.getD i 'A' ∈ upperAlphabetL ∧
    upperAlphabetL.indexOf (upperAlphabetL.getD i 'A') = i := by decide

/-- A character with a code point in the ASCII lowercase range is one of the
26 lowercase letters. -/
lemma mem_lowerAlphabetL_of_range (c : Char) (h1 : 97 ≤ c.toNat) (h2 : c.toNat ≤ 122) :
    c ∈ lowerAlphabetL := by
  have key : ∀ n, 97 ≤ n → n ≤ 122 → Char.ofNat n ∈ lowerAlphabetL := by
    intro n hn1 hn2
    interval_cases n <;> decide
  have := key c.toNat h1 h2
  rwa [Char.ofNat_toNat] at this

/-- A character whose upper-casing is an alphabet letter is itself an upper-
or lowercase ASCII letter. -/
lemma mem_upper_or_lower_of_letter (c : Char) (hc : jsToUpper c ∈ upperAlphabetL) :
    c ∈ upperAlphabetL ∨ c ∈ lowerAlphabetL := by
  by_cases h : 97 ≤ c.toNat ∧ c.toNat ≤ 122
  · exact Or.inr (mem_lowerAlphabetL_of_range c h.1 h.2)
  · left
    have hfix : jsToUpper c = c := by
      unfold jsToUpper
      rw [if_neg h]
    rwa [hfix] at hc

/-- Every character of a normalized cipher key is an uppercase letter. -/
lemma normalizeKey_subset (k : List Char) : ∀ c ∈ normalizeKey k, c ∈ upperAlphabetL := by
  intro c hc
  have h := List.mem_filter.1 hc
  simpa using h.2

/-- The key character read at any key index is an uppercase letter. -/
lemma keyChar_mem (nk : List Char) (hnk : nk ≠ [])
    (hk : ∀ c ∈ nk, c ∈ upperAlphabetL) (ki : Nat) :
    nk.getD (ki % nk.length) 'A' ∈ upperAlphabetL := by
  have hlen : 0 < nk.length := List.length_pos.2 hnk
  have hki : ki % nk.length < nk.length := Nat.mod_lt _ hlen
  rw [List.getD_eq_getElem _ _ hki]
  exact hk _ (List.getElem_mem _)

/-- `beaufortMap` sends uppercase letters to uppercase letters. -/
lemma beaufortMap_mem (nk : List Char) (ki : Nat) (u : Char) :
    beaufortMap nk ki u ∈ upperAlphabetL := by
  unfold beaufortMap
  have hd : (upperAlphabetL.indexOf (nk.getD (ki % nk.length) 'A') + 26 -
      upperAlphabetL.indexOf u) % 26 < 26 := Nat.mod_lt _ (by norm_num)
  exact (rangeFacts _ (List.mem_range.2 hd)).1

/-- The Beaufort substitution is an involution on uppercase letters. -/
lemma beaufortMap_involutive (nk : List Char) (hnk : nk ≠ [])
    (hk : ∀ c ∈ nk, c ∈ upperAlphabetL) (ki : Nat) (u : Char)
    (hu : u ∈ upperAlphabetL) :
    beaufortMap nk ki (beaufortMap nk ki u) = u := by
  have hkci : upperAlphabetL.indexOf (nk.getD (ki % nk.length) 'A') < 26 :=
    (upperFacts _ (keyChar_mem nk hnk hk ki)).2.2.2.2.1
  have hci : upperAlphabetL.indexOf u < 26 := (upperFacts u hu).2.2.2.2.1
  have hd : (upperAlphabetL.indexOf (nk.getD (ki % nk.length) 'A') + 26 -
      upperAlphabetL.indexOf u) % 26 < 26 := Nat.mod_lt _ (by norm_num)
  simp only [beaufortMap]
  rw [(rangeFacts _ (List.mem_range.2 hd)).2]
  have harith : (upperAlphabetL.indexOf (nk.getD (ki % nk.length) 'A') + 26 -
      (upperAlphabetL.indexOf (nk.getD (ki % nk.length) 'A') + 26 -
        upperAlphabetL.indexOf u) % 26) % 26 = upperAlphabetL.indexOf u := by
    omega
  rw [harith]
  exact (upperFacts u hu).2.2.2.2.2

/-- `vigenereMap` sends uppercase letters to uppercase letters. -/
lemma vigenereMap_mem (nk : List Char) (decrypt : Bool) (ki : Nat) (u : Char) :
    vigenereMap nk decrypt ki u ∈ upperAlphabetL := by
  unfold vigenereMap
  cases decrypt <;>
    exact (rangeFacts _ (List.mem_range.2 (Nat.mod_lt _ (by norm_num)))).1

/-- Vigenère decryption undoes Vigenère encryption on uppercase letters. -/
lemma vigenereMap_left_inverse (nk : List Char) (hnk : nk ≠ [])
    (hk : ∀ c ∈ nk, c ∈ upperAlphabetL) (ki : Nat) (u : Char)
    (hu : u ∈ upperAlphabetL) :
    vigenereMap nk true ki (vigenereMap nk false ki u) = u := by
  have hkci : upperAlphabetL.indexOf (nk.getD (ki % nk.length) 'A') < 26 :=
    (upperFacts _ (keyChar_mem nk hnk hk ki)).2.2.2.2.1
  have hci : upperAlphabetL.indexOf u < 26 := (upperFacts u hu).2.2.2.2.1
  have hd : (upperAlphabetL.indexOf u +
      upperAlphabetL.indexOf (nk.getD (ki % nk.length) 'A')) % 26 < 26 :=
    Nat.mod_lt _ (by norm_num)
  simp only [vigenereMap, Bool.false_eq_true, if_true, if_false, ite_false, ite_true]
  rw [(rangeFacts _ (List.mem_range.2 hd)).2]
  have harith : ((upperAlphabetL.indexOf u +
      upperAlphabetL.indexOf (nk.getD (ki % nk.length) 'A')) % 26 + 26 -
      upperAlphabetL.indexOf (nk.getD (ki % nk.length) 'A')) % 26 =
      upperAlphabetL.indexOf u := by
    omega
  rw [harith]
  exact (upperFacts u hu).2.2.2.2.2

/-- Case-preserving substitution round-trip: if `f` maps letters into the
alphabet and `g` undoes `f` there, then `caseKeep g` undoes `caseKeep f` on
any character whose upper-casing is a letter, and the intermediate
character is again a letter. -/
lemma caseKeep_roundtrip (f g : Char → Char)
    (hf : ∀ u ∈ upperAlphabetL, f u ∈ upperAlphabetL)
    (hg : ∀ u ∈ upperAlphabetL, g (f u) = u)
    (c : Char) (hc : jsToUpper c ∈ upperAlphabetL) :
    jsToUpper (caseKeep f c) ∈ upperAlphabetL ∧ caseKeep g (caseKeep f c) = c := by
  rcases mem_upper_or_lower_of_letter c hc with hcu | hcl
  · -- uppercase input: the substitute is kept uppercase
    have hju : jsToUpper c = c := (upperFacts c hcu).1
    have h1 : caseKeep f c = f c := by
      unfold caseKeep
      rw [if_pos hju.symm, hju]
    have hfc : f c ∈ upperAlphabetL := hf c hcu
    have hjfc : jsToUpper (f c) = f c := (upperFacts _ hfc).1
    refine ⟨by rw [h1, hjfc]; exact hfc, ?_⟩
    rw [h1]
    unfold caseKeep
    rw [if_pos hjfc.symm, hjfc]
    exact hg c hcu
  · -- lowercase input: the substitute is lower-cased and later re-raised
    obtain ⟨hum, hune, hlu⟩ := lowerFacts c hcl
    have h1 : caseKeep f c = jsToLower (f (jsToUpper c)) := by
      unfold caseKeep
      rw [if_neg (fun h => hune h.symm)]
    have hfu : f (jsToUpper c) ∈ upperAlphabetL := hf _ hum
    obtain ⟨-, -, hful, hfne, -, -⟩ := upperFacts _ hfu
    refine ⟨by rw [h1, hful]; exact hfu, ?_⟩
    have hcase2 : jsToLower (f (jsToUpper c)) ≠ jsToUpper (jsToLower (f (jsToUpper c))) := by
      rw [hful]
      exact hfne
    rw [h1]
    unfold caseKeep
    rw [if_neg hcase2, hful, hg _ hum, hlu]

/-- Loop-level round-trip for the shared letter-cipher loop. -/
lemma cipherGo_roundtrip (f g : Nat → Char → Char)
    (h1 : ∀ ki c, jsToUpper c ∈ upperAlphabetL → jsToUpper (f ki c) ∈ upperAlphabetL)
    (h2 : ∀ ki c, jsToUpper c ∈ upperAlphabetL → g ki (f ki c) = c) :
    ∀ (cs : List Char) (ki : Nat), cipherGo g ki (cipherGo f ki cs) = cs := by
  intro cs
  induction cs with
  | nil => intro ki; rfl
  | cons c cs ih =>
    intro ki
    by_cases hc : jsToUpper c ∈ upperAlphabetL
    · simp only [cipherGo, if_pos hc, if_pos (h1 ki c hc)]
      rw [h2 ki c hc, ih (ki + 1)]
    · simp only [cipherGo, if_neg hc]
      rw [ih ki]

end V0BTC

/-- C4: for every text `x` of ASCII letters and every key `k` whose
normalization (uppercased, non-letters stripped) is non-empty, applying
`decryptBeaufort` twice with the same key restores `x`: the Beaufort
formula `(keyIndex - cipherIndex + 26) mod 26` is self-inverse, and the
key stream stays aligned because both passes advance on the same
positions. -/
theorem c4_beaufort_self_inverse (x k : List Char)
    (hx : ∀ c ∈ x, V0BTC.isAsciiLetter c = true)
    (hk : V0BTC.normalizeKey k ≠ []) :
    V0BTC.decryptBeaufort (V0BTC.decryptBeaufort x k) k = x := by
  have hlen : (V0BTC.normalizeKey k).length ≠ 0 :=
    fun h => hk (List.length_eq_zero.1 h)
  unfold V0BTC.decryptBeaufort
  rw [if_neg hlen, if_neg hlen]
  unfold V0BTC.beaufortGo
  refine V0BTC.cipherGo_roundtrip _ _ ?_ ?_ x 0
  · intro ki c hc
    exact (V0BTC.caseKeep_roundtrip _ _
      (fun u hu => V0BTC.beaufortMap_mem _ ki u)
      (fun u hu => V0BTC.beaufortMap_involutive _ hk
        (V0BTC.normalizeKey_subset k) ki u hu) c hc).1
  · intro ki c hc
    exact (V0BTC.caseKeep_roundtrip _ _
      (fun u hu => V0BTC.beaufortMap_mem _ ki u)
      (fun u hu => V0BTC.beaufortMap_involutive _ hk
        (V0BTC.normalizeKey_subset k) ki u hu) c hc).2

/-- Witness for C4 at a concrete input. -/
theorem c4_beaufort_self_inverse_witness :
    (∀ c ∈ "SomePlainText".toList, V0BTC.isAsciiLetter c = true) ∧
      V0BTC.normalizeKey "Key".toList ≠ [] ∧
      V0BTC.decryptBeaufort
        (V0BTC.decryptBeaufort "SomePlainText".toList "Key".toList)
        "Key".toList = "SomePlainText".toList :=
  ⟨by decide, by decide,
    c4_beaufort_self_inverse "SomePlainText".toList "Key".toList
      (by decide) (by decide)⟩

/-- C5 as stated is false: with an empty key, `vigenereCipher` returns the
error string `"Error: Key must contain at least one letter"`, and feeding
that error string back through decryption (again with the empty key) yields
the error string again, not the original text. -/
theorem c5_vigenere_roundtrip_counterexample :
    V0BTC.vigenereCipher
        (V0BTC.vigenereCipher "A".toList "".toList false) "".toList true ≠
      "A".toList := by
  decide

/-- C5 (amended): for every text `x` and every key `k` whose normalization
contains at least one letter, `vigenereCipher (vigenereCipher x k false) k
true = x`. -/
theorem c5_vigenere_roundtrip_amended (x k : List Char)
    (hk : V0BTC.normalizeKey k ≠ []) :
    V0BTC.vigenereCipher (V0BTC.vigenereCipher x k false) k true = x := by
  have hlen : (V0BTC.normalizeKey k).length ≠ 0 :=
    fun h => hk (List.length_eq_zero.1 h)
  unfold V0BTC.vigenereCipher
  rw [if_neg hlen, if_neg hlen]
  unfold V0BTC.vigenereGo
  refine V0BTC.cipherGo_roundtrip _ _ ?_ ?_ x 0
  · intro ki c hc
    exact (V0BTC.caseKeep_roundtrip _ _
      (fun u hu => V0BTC.vigenereMap_mem _ false ki u)
      (fun u hu => V0BTC.vigenereMap_left_inverse _ hk
        (V0BTC.normalizeKey_subset k) ki u hu) c hc).1
  · intro ki c hc
    exact (V0BTC.caseKeep_roundtrip _ _
      (fun u hu => V0BTC.vigenereMap_mem _ false ki u)
      (fun u hu => V0BTC.vigenereMap_left_inverse _ hk
        (V0BTC.normalizeKey_subset k) ki u hu) c hc).2

/-- Witness for the amended C5 at a concrete input. -/
theorem c5_vigenere_roundtrip_amended_witness :
    V0BTC.normalizeKey "key".toList ≠ [] ∧
      V0BTC.vigenereCipher
        (V0BTC.vigenereCipher "Hello, World!".toList "key".toList false)
        "key".toList true = "Hello, World!".toList :=
  ⟨by decide,
    c5_vigenere_roundtrip_amended "Hello, World!".toList "key".toList (by decide)⟩

namespace V0BTC

/-- Looking up the key just set. -/
lemma mapGet_mapSet_self (m : List (String × Char)) (k : String) (v : Char) :
    mapGet (mapSet m k v) k = some v := by
  induction m with
  | nil => simp [mapSet, mapGet]
  | cons p rest ih =>
    obtain ⟨k0, v0⟩ := p
    by_cases h : k0 = k
    · simp [mapSet, mapGet, h]
    · simp [mapSet, mapGet, h, ih]

/-- Setting one key does not change lookups of another. -/
lemma mapGet_mapSet_ne (m : List (String × Char)) (k k' : String) (v : Char)
    (h : k ≠ k') :
    mapGet (mapSet m k v) k' = mapGet m k' := by
  induction m with
  | nil => simp [mapSet, mapGet, h]
  | cons p rest ih =>
    obtain ⟨k0, v0⟩ := p
    by_cases h0 : k0 = k
    · subst h0
      simp [mapSet, mapGet, h]
    · by_cases h1 : k0 = k' <;> simp [mapSet, mapGet, h0, h1, ih, Ne.symm h]

/-- An assignment row leaves the codes of keys it does not contain intact. -/
lemma vicAssignRow_preserve (cleanA : List Char) (keys : List String)
    (m : List (String × Char)) (idx : Nat) (k : String)
    (h : ∀ k' ∈ keys, k' ≠ k) :
    mapGet (vicAssignRow cleanA keys m idx).1 k = mapGet m k := by
  induction keys generalizing m idx with
  | nil => rfl
  | cons key keys ih =>
    have hne : key ≠ k := h key (List.mem_cons_self _ _)
    have hrest : ∀ k' ∈ keys, k' ≠ k := fun k' hk' => h k' (List.mem_cons_of_mem _ hk')
    by_cases hidx : idx < cleanA.length
    · simp only [vicAssignRow, if_pos hidx]
      rw [ih _ _ hrest, mapGet_mapSet_ne _ _ _ _ hne]
    · simp only [vicAssignRow, if_neg hidx]
      exact ih _ _ hrest

/-- While the alphabet lasts, an assignment row maps its `j`-th key to the
alphabet symbol at offset `idx + j`. -/
lemma vicAssignRow_getD (cleanA : List Char) (keys : List String)
    (m : List (String × Char)) (idx : Nat) (hnd : keys.Nodup)
    (hbound : idx + keys.length ≤ cleanA.length) :
    ∀ j, j < keys.length →
      mapGet (vicAssignRow cleanA keys m idx).1 (keys.getD j "") =
        some (cleanA.getD (idx + j) ' ') := by
  induction keys generalizing m idx with
  | nil => intro j hj; exact absurd hj (by simp)
  | cons key keys ih =>
    intro j hj
    have hidx : idx < cleanA.length := by
      simp only [List.length_cons] at hbound
      omega
    simp only [vicAssignRow, if_pos hidx]
    cases j with
    | zero =>
      have hkey_not : ∀ k' ∈ keys, k' ≠ key := by
        intro k' hk' he
        exact (List.nodup_cons.1 hnd).1 (he ▸ hk')
      rw [show (key :: keys).getD 0 "" = key from rfl]
      rw [vicAssignRow_preserve _ _ _ _ _ hkey_not, mapGet_mapSet_self, Nat.add_zero]
    | succ j =>
      rw [show (key :: keys).getD (j + 1) "" = keys.getD j "" from rfl]
      rw [ih _ _ (List.nodup_cons.1 hnd).2
        (by simp only [List.length_cons] at hbound; omega) j (by simpa using hj)]
      have harith : idx + 1 + j = idx + (j + 1) := by omega
      rw [harith]

/-- Decidable catalogue of facts about the checkerboard digit rows, for all
pairs of distinct escape digits below 10. -/
lemma vicDigitFacts : ∀ d1 ∈ List.range 10, ∀ d2 ∈ List.range 10, d1 ≠ d2 →
    (vicSingleDigits d1 d2).length = 8 ∧
    List.Sorted (· < ·) (vicSingleDigits d1 d2) ∧
    (singleKeys d1 d2).Nodup ∧
    (∀ s ∈ singleKeys d1 d2, s.length = 1) ∧
    (∀ s ∈ pairKeys d1, s.length = 2) ∧
    (∀ s ∈ pairKeys d2, s.length = 2) := by decide

end V0BTC

/-- C7: for distinct escape digits below 10, `decryptVIC` assigns the eight
remaining digits, in ascending order, as single-digit codes to the first
eight symbols of the (uppercased) supplied alphabet; in particular with
alphabet `FUBCDORALETHINGKYMVPSJQZXW` and escape digits 1 and 4, the digit
string `"0"` decodes to `"F"`. -/
theorem c7_vic_checkerboard :
    (∀ d1 d2 : Nat, d1 < 10 → d2 < 10 → d1 ≠ d2 →
      List.Sorted (· < ·) (V0BTC.vicSingleDigits d1 d2) ∧
      (V0BTC.vicSingleDigits d1 d2).length = 8 ∧
      ∀ A : List Char, 8 ≤ A.length → ∀ j, j < 8 →
        V0BTC.mapGet (V0BTC.vicCharMap A d1 d2)
            (toString ((V0BTC.vicSingleDigits d1 d2).getD j 0)) =
          some ((A.map V0BTC.jsToUpper).getD j ' ')) ∧
    V0BTC.decryptVIC "0".toList "FUBCDORALETHINGKYMVPSJQZXW".toList 1 4 =
      "F".toList := by
  constructor
  · intro d1 d2 h1 h2 hne
    obtain ⟨hlen8, hsort, hnd, hsingle1, hpair1, hpair2⟩ :=
      V0BTC.vicDigitFacts d1 (List.mem_range.2 h1) d2 (List.mem_range.2 h2) hne
    refine ⟨hsort, hlen8, ?_⟩
    intro A hA j hj
    have hjlen : j < (V0BTC.singleKeys d1 d2).length := by
      simp only [V0BTC.singleKeys, List.length_map, hlen8]
      exact hj
    have hkey : (V0BTC.singleKeys d1 d2).getD j "" =
        toString ((V0BTC.vicSingleDigits d1 d2).getD j 0) := by
      rw [List.getD_eq_getElem _ _ hjlen,
        List.getD_eq_getElem _ _ (show j < (V0BTC.vicSingleDigits d1 d2).length by
          rw [hlen8]; exact hj)]
      simp [V0BTC.singleKeys]
    rw [← hkey]
    have hmem : (V0BTC.singleKeys d1 d2).getD j "" ∈ V0BTC.singleKeys d1 d2 := by
      rw [List.getD_eq_getElem _ _ hjlen]
      exact List.getElem_mem _
    have hk1 : ((V0BTC.singleKeys d1 d2).getD j "").length = 1 := hsingle1 _ hmem
    simp only [V0BTC.vicCharMap]
    rw [V0BTC.vicAssignRow_preserve _ _ _ _ _ (fun k' hk' he => by
      have h2' := hpair2 k' hk'
      rw [he, hk1] at h2'
      exact absurd h2' (by norm_num))]
    rw [V0BTC.vicAssignRow_preserve _ _ _ _ _ (fun k' hk' he => by
      have h1' := hpair1 k' hk'
      rw [he, hk1] at h1'
      exact absurd h1' (by norm_num))]
    have hfin := V0BTC.vicAssignRow_getD (A.map V0BTC.jsToUpper)
      (V0BTC.singleKeys d1 d2) [] 0 hnd
      (by simp only [V0BTC.singleKeys, List.length_map, List.length_map, hlen8]
          simpa using hA)
      j hjlen
    simpa using hfin
  · decide

namespace V0BTC

/-! ### Spiral traversal lemmas -/

lemma intRange_eq_nil {a b : Int} (h : b < a) : intRange a b = [] := by
  unfold intRange
  have hz : (b + 1 - a).toNat = 0 := by omega
  rw [hz]
  rfl

lemma intRange_cons {a b : Int} (h : a ≤ b) :
    intRange a b = a :: intRange (a + 1) b := by
  unfold intRange
  have h1 : (b + 1 - a).toNat = (b + 1 - (a + 1)).toNat + 1 := by omega
  rw [h1, List.range_succ_eq_map, List.map_cons, List.map_map]
  simp only [Nat.cast_zero, add_zero]
  congr 1
  apply List.map_congr_left
  intro x hx
  simp only [Function.comp_apply]
  push_cast
  ring

lemma intRange_concat {a b : Int} (h : a ≤ b) :
    intRange a b = intRange a (b - 1) ++ [b] := by
  unfold intRange
  have h1 : (b + 1 - a).toNat = (b - 1 + 1 - a).toNat + 1 := by omega
  rw [h1, List.range_succ, List.map_append, List.map_cons, List.map_nil]
  have h2 : a + (((b - 1 + 1 - a).toNat : Nat) : Int) = b := by omega
  rw [h2]

lemma rowSeg_nil {m : List (List Nat)} {r a b : Int} (h : b < a) :
    rowSeg m r a b = [] := by
  unfold rowSeg
  rw [intRange_eq_nil h]
  rfl

lemma colSeg_nil {m : List (List Nat)} {c a b : Int} (h : b < a) :
    colSeg m c a b = [] := by
  unfold colSeg
  rw [intRange_eq_nil h]
  rfl

lemma rowSeg_cons {m : List (List Nat)} {r a b : Int} (h : a ≤ b) :
    rowSeg m r a b = getCell m r a :: rowSeg m r (a + 1) b := by
  unfold rowSeg
  rw [intRange_cons h, List.map_cons]

lemma rowSeg_concat {m : List (List Nat)} {r a b : Int} (h : a ≤ b) :
    rowSeg m r a b = rowSeg m r a (b - 1) ++ [getCell m r b] := by
  unfold rowSeg
  rw [intRange_concat h, List.map_append, List.map_cons, List.map_nil]

lemma rectCells_nil_rows {m : List (List Nat)} {t b l r : Int} (h : b < t) :
    rectCells m t b l r = [] := by
  unfold rectCells
  rw [intRange_eq_nil h]
  rfl

lemma rectCells_nil_cols {m : List (List Nat)} {t b l r : Int} (h : r < l) :
    rectCells m t b l r = [] := by
  unfold rectCells
  induction intRange t b with
  | nil => rfl
  | cons i L ih => simpa [List.flatMap_cons, rowSeg_nil h] using ih

lemma rectCells_peel_top {m : List (List Nat)} {t b l r : Int} (h : t ≤ b) :
    rectCells m t b l r = rowSeg m t l r ++ rectCells m (t + 1) b l r := by
  unfold rectCells
  rw [intRange_cons h, List.flatMap_cons]

lemma rectCells_peel_bottom {m : List (List Nat)} {t b l r : Int} (h : t ≤ b) :
    rectCells m t b l r = rectCells m t (b - 1) l r ++ rowSeg m b l r := by
  unfold rectCells
  rw [intRange_concat h, List.flatMap_append]
  simp [List.flatMap_cons]

lemma rectCells_peel_left {m : List (List Nat)} {t b l r : Int} (h : l ≤ r) :
    (rectCells m t b l r : Multiset Nat) =
      (colSeg m l t b : Multiset Nat) + (rectCells m t b (l + 1) r : Multiset Nat) := by
  unfold rectCells colSeg
  induction intRange t b with
  | nil => rfl
  | cons i L ih =>
    rw [List.flatMap_cons, List.flatMap_cons, List.map_cons, rowSeg_cons h]
    simp only [← Multiset.coe_add, ← Multiset.cons_coe, ← Multiset.singleton_add] at ih ⊢
    rw [ih]
    abel

lemma rectCells_peel_right {m : List (List Nat)} {t b l r : Int} (h : l ≤ r) :
    (rectCells m t b l r : Multiset Nat) =
      (rectCells m t b l (r - 1) : Multiset Nat) + (colSeg m r t b : Multiset Nat) := by
  unfold rectCells colSeg
  induction intRange t b with
  | nil => rfl
  | cons i L ih =>
    rw [List.flatMap_cons, List.flatMap_cons, List.map_cons, rowSeg_concat h]
    simp only [← Multiset.coe_add, ← Multiset.cons_coe, ← Multiset.singleton_add,
      Multiset.coe_singleton] at ih ⊢
    rw [ih]
    abel

/-- The spiral walk visits exactly the cells of the current bounding box:
its output is a permutation (stated as multiset equality) of the row-major
cell list, for either direction, whenever the fuel covers the remaining
perimeter. -/
lemma spiralLoop_perm (m : List (List Nat)) (ccw : Bool) :
    ∀ (fuel : Nat) (t b l r : Int),
      (b + 1 - t).toNat + (r + 1 - l).toNat ≤ fuel →
      (spiralLoop m ccw fuel t b l r : Multiset Nat) = (rectCells m t b l r : Multiset Nat) := by
  intro fuel
  induction fuel with
  | zero =>
    intro t b l r hf
    have hb : b < t := by omega
    rw [rectCells_nil_rows hb]
    cases ccw <;> rfl
  | succ fuel ih =>
    intro t b l r hf
    by_cases hcond : t ≤ b ∧ l ≤ r
    case neg =>
      have hrect : (rectCells m t b l r : Multiset Nat) = (([] : List Nat) : Multiset Nat) := by
        rcases not_and_or.1 hcond with h | h
        · rw [rectCells_nil_rows (by omega)]
        · rw [rectCells_nil_cols (by omega)]
      cases ccw <;> simp only [spiralLoop, if_neg hcond] <;> rw [hrect]
    case pos =>
      obtain ⟨htb, hlr⟩ := hcond
      cases ccw with
      | true =>
        simp only [spiralLoop]
        rw [if_pos (⟨htb, hlr⟩ : t ≤ b ∧ l ≤ r)]
        split_ifs with hA hB hB
        · -- interior ring: l < r and t < b
          have hSL := ih (t + 1) (b - 1) (l + 1) (r - 1) (by omega)
          have e1 := rectCells_peel_left (m := m) (t := t) (b := b) (r := r) hlr
          have e2 := rectCells_peel_bottom (m := m) (t := t) (b := b) (l := l + 1)
            (r := r) htb
          have e3 := rectCells_peel_right (m := m) (t := t) (b := b - 1) (l := l + 1)
            (r := r) hA
          have e4 := rectCells_peel_top (m := m) (t := t) (b := b - 1) (l := l + 1)
            (r := r - 1) hB
          rw [e1, e2]
          simp only [← Multiset.coe_add]
          rw [e3, e4]
          simp only [← Multiset.coe_add, Multiset.coe_reverse]
          rw [hSL]
          abel
        · -- single row: t = b (with l < r)
          have hSL := ih t (b - 1) (l + 1) (r - 1) (by omega)
          rw [rectCells_nil_rows (by omega)] at hSL
          have e1 := rectCells_peel_left (m := m) (t := t) (b := b) (r := r) hlr
          have e2 := rectCells_peel_top (m := m) (t := t) (b := b) (l := l + 1)
            (r := r) htb
          rw [e1, e2, rectCells_nil_rows (show (b : Int) < t + 1 by omega),
            colSeg_nil (show (b : Int) - 1 < t by omega)]
          have hrow : rowSeg m b (l + 1) r = rowSeg m t (l + 1) r := by
            have heq : t = b := by omega
            rw [heq]
          rw [hrow]
          simp only [← Multiset.coe_add, Multiset.coe_reverse, List.reverse_nil]
          rw [hSL]
          simp only [Multiset.coe_nil]
          abel
        · -- single column: l = r, t < b
          have hSL := ih (t + 1) (b - 1) (l + 1) r (by omega)
          rw [rectCells_nil_cols (by omega)] at hSL
          have e1 := rectCells_peel_left (m := m) (t := t) (b := b) (r := r) hlr
          rw [e1, rectCells_nil_cols (show (r : Int) < l + 1 by omega),
            rowSeg_nil (show (r : Int) < l + 1 by omega),
            rowSeg_nil (show (r : Int) < l + 1 by omega)]
          simp only [← Multiset.coe_add, Multiset.coe_reverse, List.reverse_nil]
          rw [hSL]
          simp only [Multiset.coe_nil]
          abel
        · -- single cell: t = b and l = r
          have hSL := ih t (b - 1) (l + 1) r (by omega)
          rw [rectCells_nil_cols (by omega)] at hSL
          have e1 := rectCells_peel_left (m := m) (t := t) (b := b) (r := r) hlr
          rw [e1, rectCells_nil_cols (show (r : Int) < l + 1 by omega),
            rowSeg_nil (show (r : Int) < l + 1 by omega)]
          simp only [← Multiset.coe_add, Multiset.coe_reverse, List.reverse_nil]
          rw [hSL]
          simp only [Multiset.coe_nil]
          abel
      | false =>
        simp only [spiralLoop]
        rw [if_pos (⟨htb, hlr⟩ : t ≤ b ∧ l ≤ r)]
        split_ifs with hA hB hB
        · -- interior ring: t < b and l < r
          have hSL := ih (t + 1) (b - 1) (l + 1) (r - 1) (by omega)
          have e1 := rectCells_peel_top (m := m) (t := t) (b := b) (l := l)
            (r := r) htb
          have e2 := rectCells_peel_right (m := m) (t := t + 1) (b := b) (l := l)
            (r := r) hlr
          have e3 := rectCells_peel_bottom (m := m) (t := t + 1) (b := b) (l := l)
            (r := r - 1) hA
          have e4 := rectCells_peel_left (m := m) (t := t + 1) (b := b - 1) (l := l)
            (r := r - 1) hB
          rw [e1]
          simp only [← Multiset.coe_add]
          rw [e2, e3]
          simp only [← Multiset.coe_add]
          rw [e4]
          simp only [← Multiset.coe_add, Multiset.coe_reverse]
          rw [hSL]
          abel
        · -- single column: l = r, t < b
          have hSL := ih (t + 1) (b - 1) l (r - 1) (by omega)
          rw [rectCells_nil_cols (by omega)] at hSL
          have e1 := rectCells_peel_top (m := m) (t := t) (b := b) (l := l)
            (r := r) htb
          have e2 := rectCells_peel_right (m := m) (t := t + 1) (b := b) (l := l)
            (r := r) hlr
          rw [e1]
          simp only [← Multiset.coe_add]
          rw [e2, rectCells_nil_cols (show (r : Int) - 1 < l by omega),
            rowSeg_nil (show (r : Int) - 1 < l by omega)]
          simp only [← Multiset.coe_add, Multiset.coe_reverse, List.reverse_nil]
          rw [hSL]
          simp only [Multiset.coe_nil]
          abel
        · -- single row: t = b, l < r
          have hSL := ih (t + 1) b (l + 1) (r - 1) (by omega)
          rw [rectCells_nil_rows (by omega)] at hSL
          have e1 := rectCells_peel_top (m := m) (t := t) (b := b) (l := l)
            (r := r) htb
          rw [e1, rectCells_nil_rows (show (b : Int) < t + 1 by omega),
            colSeg_nil (show (b : Int) < t + 1 by omega),
            colSeg_nil (show (b : Int) < t + 1 by omega)]
          simp only [← Multiset.coe_add, Multiset.coe_reverse, List.reverse_nil]
          rw [hSL]
          simp only [Multiset.coe_nil]
          abel
        · -- single cell
          have hSL := ih (t + 1) b l (r - 1) (by omega)
          rw [rectCells_nil_rows (by omega)] at hSL
          have e1 := rectCells_peel_top (m := m) (t := t) (b := b) (l := l)
            (r := r) htb
          rw [e1, rectCells_nil_rows (show (b : Int) < t + 1 by omega),
            colSeg_nil (show (b : Int) < t + 1 by omega)]
          simp only [← Multiset.coe_add, Multiset.coe_reverse, List.reverse_nil]
          rw [hSL]
          simp only [Multiset.coe_nil]
          abel

/-- Reading a list back through `getD` over its index range reproduces it. -/
lemma map_range_getD {α : Type} (l : List α) (d : α) :
    (List.range l.length).map (fun k => l.getD k d) = l := by
  apply List.ext_getElem
  · simp
  · intro i h1 h2
    simp only [List.getElem_map, List.getElem_range]
    exact List.getD_eq_getElem l d h2

/-- For a rectangular matrix, the full-matrix cell rectangle is exactly the
row-major flattening. -/
lemma rectCells_eq_flatten (m : List (List Nat))
    (hrect : ∀ row ∈ m, row.length = (m.getD 0 []).length) :
    rectCells m 0 ((m.length : Int) - 1) 0 (((m.getD 0 []).length : Int) - 1) =
      m.flatten := by
  have hir : ∀ n : Nat, intRange 0 ((n : Int) - 1) =
      (List.range n).map (fun (k : Nat) => (k : Int)) := by
    intro n
    unfold intRange
    have hn : ((n : Int) - 1 + 1 - 0).toNat = n := by omega
    rw [hn]
    apply List.map_congr_left
    intro j hj
    omega
  have hflatmap : ∀ (L : List Nat) (g : Nat → Int) (f : Int → List Nat),
      (L.map g).flatMap f = (L.map (f ∘ g)).flatten := by
    intro L g f
    induction L with
    | nil => rfl
    | cons a L ih =>
      simp only [List.map_cons, List.flatMap_cons, List.flatten_cons, ih,
        Function.comp_apply]
  have hrowseg : ∀ k, k < m.length →
      rowSeg m (k : Int) 0 (((m.getD 0 []).length : Int) - 1) = m.getD k [] := by
    intro k hk
    have hrow : (m.getD k []).length = (m.getD 0 []).length := by
      apply hrect
      rw [List.getD_eq_getElem _ _ hk]
      exact List.getElem_mem _
    unfold rowSeg
    rw [hir, List.map_map]
    have hmap : List.map ((fun j => getCell m (k : Int) j) ∘ (fun (j : Nat) => (j : Int)))
        (List.range (m.getD 0 []).length) =
        List.map (fun (j : Nat) => (m.getD k []).getD j 0)
          (List.range (m.getD 0 []).length) := by
      apply List.map_congr_left
      intro j hj
      simp only [Function.comp_apply]
      unfold getCell
      simp
    rw [hmap, ← hrow, map_range_getD]
  unfold rectCells
  rw [hir, hflatmap]
  have hrows : List.map ((fun i => rowSeg m i 0 (((m.getD 0 []).length : Int) - 1)) ∘
      (fun (k : Nat) => (k : Int))) (List.range m.length) =
      List.map (fun (k : Nat) => m.getD k []) (List.range m.length) := by
    apply List.map_congr_left
    intro k hk
    simp only [Function.comp_apply]
    exact hrowseg k (List.mem_range.1 hk)
  rw [hrows, map_range_getD]

/-- The spiral cell list of a matrix is a permutation of its row-major
flattening. -/
lemma spiralList_perm (m : List (List Nat))
    (hrect : ∀ row ∈ m, row.length = (m.getD 0 []).length) (dir : Bool) :
    (spiralList m dir).Perm m.flatten := by
  rw [← Multiset.coe_eq_coe]
  unfold spiralList
  rw [spiralLoop_perm m dir (m.length + (m.getD 0 []).length) 0
    ((m.length : Int) - 1) 0 (((m.getD 0 []).length : Int) - 1) (by omega)]
  rw [rectCells_eq_flatten m hrect]

/-- Concatenating the decimal representations of single-digit values is the
same as mapping each to its digit character. -/
lemma joinDigits_eq_map (l : List Nat) (h : ∀ v ∈ l, v < 10) :
    joinDigits l = l.map (fun v => Nat.digitChar v) := by
  have hdig : ∀ v ∈ List.range 10, (toString v).toList = [Nat.digitChar v] := by decide
  induction l with
  | nil => rfl
  | cons n rest ih =>
    have hn : n < 10 := h n (List.mem_cons_self _ _)
    unfold joinDigits
    rw [ih (fun v hv => h v (List.mem_cons_of_mem _ hv)),
      hdig n (List.mem_range.2 hn)]
    rfl

/-- A rectangular matrix flattens to `rows * cols` entries. -/
lemma flatten_length_uniform :
    ∀ (m : List (List Nat)) (c : Nat), (∀ row ∈ m, row.length = c) →
      m.flatten.length = m.length * c := by
  intro m c
  induction m with
  | nil => intro h; simp
  | cons row rest ih =>
    intro h
    rw [List.flatten_cons, List.length_append, List.length_cons,
      ih (fun r hr => h r (List.mem_cons_of_mem _ hr)),
      h row (List.mem_cons_self _ _)]
    ring

end V0BTC

/-- C6: on the 3×3 matrix `[[1,2,3],[4,5,6],[7,8,9]]`, `readSpiralMatrix`
yields `1,2,3,6,9,8,7,4,5` in clockwise mode (`counterClockwise = false`)
and `1,4,7,8,9,6,3,2,5` in counter-clockwise mode. -/
theorem c6_spiral_3x3 :
    V0BTC.readSpiralMatrix [[1, 2, 3], [4, 5, 6], [7, 8, 9]] false = "123698745" ∧
      V0BTC.readSpiralMatrix [[1, 2, 3], [4, 5, 6], [7, 8, 9]] true = "147896325" := by
  constructor
  · rfl
  · rfl

/-- C10 as stated is false: cell values are arbitrary numbers, and a value
with more than one decimal digit stretches the joined string past
`rows * cols`: for the 1×1 matrix `[[10]]` the result is `"10"`, of
length 2 ≠ 1 · 1. -/
theorem c10_spiral_counterexample :
    V0BTC.readSpiralMatrix [[10]] false = "10" ∧
      (V0BTC.readSpiralMatrix [[10]] false).length ≠ 1 * 1 := by
  constructor
  · rfl
  · decide

/-- C10 (amended): for every non-empty rectangular matrix of single-digit
entries (each row as long as the first, every value below 10),
`readSpiralMatrix` in either direction visits each cell exactly once: the
returned string has length `rows * cols` and its characters are a
rearrangement of the digit characters of the matrix's cells. -/
theorem c10_spiral_permutation_amended (m : List (List Nat)) (hne : m ≠ [])
    (hrect : ∀ row ∈ m, row.length = (m.getD 0 []).length)
    (hdig : ∀ row ∈ m, ∀ v ∈ row, v < 10) (dir : Bool) :
    (V0BTC.readSpiralMatrix m dir).length = m.length * (m.getD 0 []).length ∧
      (V0BTC.readSpiralMatrix m dir).toList.Perm
        (m.flatten.map (fun v => Nat.digitChar v)) := by
  have hlen : m.length ≠ 0 := fun h => hne (List.length_eq_zero.1 h)
  have hperm : (V0BTC.spiralList m dir).Perm m.flatten :=
    V0BTC.spiralList_perm m hrect dir
  have hdig' : ∀ v ∈ V0BTC.spiralList m dir, v < 10 := by
    intro v hv
    have hvf : v ∈ m.flatten := hperm.mem_iff.1 hv
    obtain ⟨row, hrow, hvr⟩ := List.mem_flatten.1 hvf
    exact hdig row hrow v hvr
  have hread : V0BTC.readSpiralMatrix m dir =
      String.mk (V0BTC.joinDigits (V0BTC.spiralList m dir)) := by
    unfold V0BTC.readSpiralMatrix
    rw [if_neg hlen]
  rw [hread, V0BTC.joinDigits_eq_map _ hdig']
  constructor
  · have hl : (String.mk ((V0BTC.spiralList m dir).map (fun v => Nat.digitChar v))).length =
        ((V0BTC.spiralList m dir).map (fun v => Nat.digitChar v)).length := rfl
    rw [hl, List.length_map, hperm.length_eq,
      V0BTC.flatten_length_uniform m (m.getD 0 []).length hrect]
  · have ht : (String.mk ((V0BTC.spiralList m dir).map (fun v => Nat.digitChar v))).toList =
        (V0BTC.spiralList m dir).map (fun v => Nat.digitChar v) := rfl
    rw [ht]
    exact hperm.map _

namespace V0BTC

/-- Folding decimal digits from accumulator `a` stays below `(a+1) · 10^len`. -/
lemma foldl_digits_lt : ∀ (s : List Char) (a : Nat), (∀ c ∈ s, isDigitC c) →
    s.foldl (fun a c => a * 10 + (c.toNat - 48)) a < (a + 1) * 10 ^ s.length := by
  intro s
  induction s with
  | nil =>
    intro a h
    simpa using Nat.lt_succ_self a
  | cons c cs ih =>
    intro a h
    have hc : c.toNat - 48 ≤ 9 := by
      have := h c (List.mem_cons_self _ _)
      unfold isDigitC at this
      omega
    have step := ih (a * 10 + (c.toNat - 48)) (fun x hx => h x (List.mem_cons_of_mem _ hx))
    rw [List.foldl_cons]
    refine lt_of_lt_of_le step ?_
    have hle : a * 10 + (c.toNat - 48) + 1 ≤ (a + 1) * 10 := by omega
    calc (a * 10 + (c.toNat - 48) + 1) * 10 ^ cs.length
        ≤ (a + 1) * 10 * 10 ^ cs.length := Nat.mul_le_mul_right _ hle
      _ = (a + 1) * 10 ^ (c :: cs).length := by
          rw [List.length_cons, pow_succ]
          ring

/-- A decimal string of length `len` denotes a value below `10^len`. -/
lemma digitsToNat_lt (s : List Char) (h : ∀ c ∈ s, isDigitC c) :
    digitsToNat s < 10 ^ s.length := by
  have := foldl_digits_lt s 0 h
  simpa [digitsToNat] using this

/-- A decimal string denoting at least `2^256` has at least 78 digits. -/
lemma digits_length_ge_78 (s : List Char) (h : ∀ c ∈ s, isDigitC c)
    (hbig : 2 ^ 256 ≤ digitsToNat s) : 78 ≤ s.length := by
  by_contra hlt
  push_neg at hlt
  have h1 : digitsToNat s < 10 ^ s.length := digitsToNat_lt s h
  have h2 : (10 : Nat) ^ s.length ≤ 10 ^ 77 := Nat.pow_le_pow_right (by norm_num) (by omega)
  have h3 : (10 : Nat) ^ 77 < 2 ^ 256 := by norm_num
  omega

/-- A value of at least `16^k` has more than `k` hexadecimal digits. -/
lemma hexRepr_length : ∀ (k fuel n : Nat), 16 ^ k ≤ n → k ≤ fuel →
    k + 1 ≤ (hexRepr fuel n).length := by
  intro k
  induction k with
  | zero =>
    intro fuel n h1 h2
    cases fuel with
    | zero => simp [hexRepr]
    | succ f => by_cases hn : n < 16 <;> simp [hexRepr, hn]
  | succ k ih =>
    intro fuel n h1 h2
    obtain ⟨f, rfl⟩ : ∃ f, fuel = f + 1 := ⟨fuel - 1, by omega⟩
    have h16le : (16 : Nat) ≤ 16 ^ (k + 1) := by
      calc (16 : Nat) = 16 ^ 1 := (pow_one 16).symm
        _ ≤ 16 ^ (k + 1) := Nat.pow_le_pow_right (by norm_num) (by omega)
    have hn : ¬ n < 16 := by omega
    simp only [hexRepr, if_neg hn, List.length_append, List.length_cons, List.length_nil]
    have hdiv : 16 ^ k ≤ n / 16 := by
      rw [Nat.le_div_iff_mul_le (by norm_num)]
      calc 16 ^ k * 16 = 16 ^ (k + 1) := by ring
        _ ≤ n := h1
    have := ih f (n / 16) hdiv (by omega)
    omega

lemma padStart64_length (s : List Char) :
    (padStart64 s).length = 64 - s.length + s.length := by
  simp [padStart64]

/-- Decimal digits are not whitespace. -/
lemma isDigitC_not_whitespace (c : Char) (h : isDigitC c) :
    c.isWhitespace = false := by
  unfold isDigitC at h
  by_contra hw
  rw [Bool.not_eq_false] at hw
  simp only [Char.isWhitespace, Bool.or_eq_true, decide_eq_true_eq] at hw
  rcases hw with ((rfl | rfl) | rfl) | rfl <;> revert h <;> decide

lemma dropWhile_eq_self {p : Char → Bool} (s : List Char)
    (h : ∀ c ∈ s, p c = false) : s.dropWhile p = s := by
  cases s with
  | nil => rfl
  | cons c cs =>
    rw [List.dropWhile_cons_of_neg]
    simp [h c (List.mem_cons_self _ _)]

lemma jsTrim_eq_self (s : List Char) (h : ∀ c ∈ s, c.isWhitespace = false) :
    jsTrim s = s := by
  unfold jsTrim
  rw [dropWhile_eq_self s h,
    dropWhile_eq_self _ (fun c hc => h c (List.mem_reverse.1 hc)),
    List.reverse_reverse]

end V0BTC

/-- C9 as stated is false: a decimal string consisting only of the digits
0 and 1 with at most 256 characters is silently coerced to the *binary*
format even when its decimal value is at least `2^256`: for
`"1" followed by 78 zeros` (value `10^78 ≥ 2^256`), `parsePrivateKey`
returns format `"binary"` with no error. -/
theorem c9_parse_overflow_counterexample :
    (∀ c ∈ ('1' :: List.replicate 78 '0'), V0BTC.isDigitC c) ∧
      2 ^ 256 ≤ V0BTC.digitsToNat ('1' :: List.replicate 78 '0') ∧
      (V0BTC.parsePrivateKey ('1' :: List.replicate 78 '0')).format = "binary" ∧
      (V0BTC.parsePrivateKey ('1' :: List.replicate 78 '0')).error = none := by
  refine ⟨by decide, by decide, ?_, ?_⟩
  · rfl
  · rfl

/-- C9 (amended): for every decimal-digit string whose value is at least
`2^256`, `parsePrivateKey` returns the unknown-format error — unless the
string consists only of the digits 0 and 1 and has at most 256 characters,
in which case it is reinterpreted as a bitstring (see the counterexample). -/
theorem c9_parse_overflow_amended (s : List Char)
    (hd : ∀ c ∈ s, V0BTC.isDigitC c)
    (hbig : 2 ^ 256 ≤ V0BTC.digitsToNat s)
    (hnb : ¬ ((∀ c ∈ s, c = '0' ∨ c = '1') ∧ s.length ≤ 256)) :
    (V0BTC.parsePrivateKey s).format = "unknown" ∧
      (V0BTC.parsePrivateKey s).error = some "Could not parse private key format" := by
  have hlen : 78 ≤ s.length := V0BTC.digits_length_ge_78 s hd hbig
  have htrim : V0BTC.jsTrim s = s :=
    V0BTC.jsTrim_eq_self s (fun c hc => V0BTC.isDigitC_not_whitespace c (hd c hc))
  have hH : ¬ V0BTC.regexHex64 s := fun hreg => by
    have := hreg.1
    omega
  have hW : ¬ V0BTC.regexWif s := fun hreg => by
    rcases hreg.2.1 with h2 | h2 <;> omega
  have hD : V0BTC.regexDecimal s :=
    ⟨fun hnil => by rw [hnil] at hlen; simp at hlen, hd⟩
  have hhexlen : 65 ≤ (V0BTC.hexRepr (V0BTC.digitsToNat s) (V0BTC.digitsToNat s)).length := by
    have h64 : 16 ^ 64 ≤ V0BTC.digitsToNat s := by
      have he : (16 : Nat) ^ 64 = 2 ^ 256 := by norm_num
      omega
    have hfuel : 64 ≤ V0BTC.digitsToNat s := by
      have : (64 : Nat) ≤ 16 ^ 64 := by norm_num
      omega
    have := V0BTC.hexRepr_length 64 (V0BTC.digitsToNat s) (V0BTC.digitsToNat s) h64 hfuel
    omega
  have hpad : ¬ ((V0BTC.padStart64
      (V0BTC.hexRepr (V0BTC.digitsToNat s) (V0BTC.digitsToNat s))).length ≤ 64) := by
    rw [V0BTC.padStart64_length]
    omega
  have hB : ¬ (V0BTC.regexBinary s ∧ s.length ≤ 256) := by
    rintro ⟨⟨-, h01⟩, hlen256⟩
    exact hnb ⟨h01, hlen256⟩
  have hX : ¬ V0BTC.regexHex0x s := by
    rintro ⟨hl2, -, hx, -⟩
    have hmem : s.getD 1 ' ' ∈ s := by
      rw [List.getD_eq_getElem _ _ (by omega)]
      exact List.getElem_mem _
    have hd1 := hd _ hmem
    rw [hx] at hd1
    exact absurd hd1 (by decide)
  simp only [V0BTC.parsePrivateKey, htrim]
  rw [if_neg hH, if_neg hW, if_pos hD, if_neg hpad, if_neg hB, if_neg hX]
  exact ⟨rfl, rfl⟩

/-- Witness for the amended C9: `"2"` followed by 77 zeros (value
`2·10^77 ≥ 2^256`, containing a digit other than 0/1). -/
theorem c9_parse_overflow_amended_witness :
    (∀ c ∈ ('2' :: List.replicate 77 '0'), V0BTC.isDigitC c) ∧
      2 ^ 256 ≤ V0BTC.digitsToNat ('2' :: List.replicate 77 '0') ∧
      ¬ ((∀ c ∈ ('2' :: List.replicate 77 '0'), c = '0' ∨ c = '1') ∧
        ('2' :: List.replicate 77 '0').length ≤ 256) ∧
      (V0BTC.parsePrivateKey ('2' :: List.replicate 77 '0')).format = "unknown" :=
  ⟨by decide, by decide, by decide,
    (c9_parse_overflow_amended ('2' :: List.replicate 77 '0')
      (by decide) (by decide) (by decide)).1⟩

/-- Witness for the amended C10 at a concrete matrix. -/
theorem c10_spiral_permutation_amended_witness :
    ([[1, 2, 3], [4, 5, 6]] : List (List Nat)) ≠ [] ∧
      (∀ row ∈ ([[1, 2, 3], [4, 5, 6]] : List (List Nat)),
        row.length = (([[1, 2, 3], [4, 5, 6]] : List (List Nat)).getD 0 []).length) ∧
      (∀ row ∈ ([[1, 2, 3], [4, 5, 6]] : List (List Nat)), ∀ v ∈ row, v < 10) ∧
      (V0BTC.readSpiralMatrix [[1, 2, 3], [4, 5, 6]] true).length = 2 * 3 ∧
      (V0BTC.readSpiralMatrix [[1, 2, 3], [4, 5, 6]] true).toList.Perm
        (([[1, 2, 3], [4, 5, 6]] : List (List Nat)).flatten.map
          (fun v => Nat.digitChar v)) := by
  refine ⟨by decide, by decide, by decide, ?_, ?_⟩
  · exact (c10_spiral_permutation_amended [[1, 2, 3], [4, 5, 6]] (by decide)
      (by decide) (by decide) true).1
  · exact (c10_spiral_permutation_amended [[1, 2, 3], [4, 5, 6]] (by decide)
      (by decide) (by decide) true).2

/-- Witness for C7 at the concrete escape digits 1 and 4, the puzzle
alphabet, and code index 0. -/
theorem c7_vic_checkerboard_witness :
    (1 : Nat) < 10 ∧ (4 : Nat) < 10 ∧ (1 : Nat) ≠ 4 ∧
      8 ≤ ("FUBCDORALETHINGKYMVPSJQZXW".toList).length ∧ (0 : Nat) < 8 ∧
      V0BTC.mapGet
          (V0BTC.vicCharMap "FUBCDORALETHINGKYMVPSJQZXW".toList 1 4)
          (toString ((V0BTC.vicSingleDigits 1 4).getD 0 0)) = some 'F' :=
  ⟨by decide, by decide, by decide, by decide, by decide,
    ((c7_vic_checkerboard.1 1 4 (by decide) (by decide) (by decide)).2.2
        "FUBCDORALETHINGKYMVPSJQZXW".toList (by decide) 0 (by decide)).trans
      (by decide)⟩

/-- Validation of the symmetric stack: an OpenSSL `Salted__` blob (salt
`0001020304050607`) built with the module's own key derivation
(`EVP_BytesToKey` over `SHA256("causality")`) decrypts to the plaintext it
encodes, exercising Base64, MD5, `EVP_BytesToKey`, AES-256-CBC, PKCS#7
unpadding, and UTF-8 decoding end to end. -/
theorem decryptAES256CBC_test_vector :
    V0BTC.decryptAES256CBC
        "U2FsdGVkX18AAQIDBAUGB3xlLVWA+pgB3HkPNjw19ng=".toList
        "causality".toList = "Hello GSMG!".toList := by
  rfl

/-- Validation of the failure paths: a ciphertext that is not a whole
number of blocks and a wrong password both yield tagged error strings. -/
theorem decryptAES256CBC_error_paths :
    V0BTC.decryptAES256CBC "AAAA".toList "pw".toList =
        "AES-256-CBC Decryption Error: wrong final block length".toList ∧
      V0BTC.decryptAES256CBC
          "U2FsdGVkX18AAQIDBAUGB3xlLVWA+pgB3HkPNjw19ng=".toList
          "wrongpw".toList =
        "AES-256-CBC Decryption Error: bad decrypt".toList := by
  exact ⟨rfl, rfl⟩

/-- C8: for every Base64 input string and every password,
`decryptAES256CBC` never raises: it is a total function whose result is
either the successfully decrypted plaintext or a string tagged
`AES-256-CBC Decryption Error: ` carrying the message of the internal
failure (wrong final block length, bad decrypt), exactly the `try/catch`
of the source. -/
theorem c8_decrypt_never_throws (encrypted password : List Char) :
    (∃ s, V0BTC.decryptAES256CBCBody encrypted password = Except.ok s ∧
      V0BTC.decryptAES256CBC encrypted password = s) ∨
    (∃ m, V0BTC.decryptAES256CBCBody encrypted password = Except.error m ∧
      V0BTC.decryptAES256CBC encrypted password =
        ("AES-256-CBC Decryption Error: " ++ m).toList) := by
  cases h : V0BTC.decryptAES256CBCBody encrypted password with
  | ok s => exact Or.inl ⟨s, rfl, by simp [V0BTC.decryptAES256CBC, h]⟩
  | error m => exact Or.inr ⟨m, rfl, by simp [V0BTC.decryptAES256CBC, h]⟩
